import Mathlib

/-!
Verification of the guideline-chatbot core (`src/Guideline_Chatbot/index.js`).

Strings are shallowly embedded as `List Char` (one element per Unicode code
point; all characters appearing in the program's data are in the BMP, where
JavaScript's UTF-16 `length` agrees with the code-point count).  JavaScript
regular expressions used by the program are translated into executable
matching functions; each translation is documented next to its definition.
-/

namespace Chatbot

/-- The character class matched by JavaScript `\s` (also the set removed by
`String.prototype.trim`): tab through carriage return, space, NBSP, and the
Unicode space separators, line/paragraph separators and BOM. -/
def jsIsSpace (c : Char) : Bool :=
  let n := c.toNat
  (9 ≤ n && n ≤ 13) || n = 32 || n = 160 || n = 0x1680 ||
    (0x2000 ≤ n && n ≤ 0x200A) || n = 0x2028 || n = 0x2029 ||
    n = 0x202F || n = 0x205F || n = 0x3000 || n = 0xFEFF

/-- The character class matched by JavaScript `\w`: `[A-Za-z0-9_]`. -/
def isWordChar (c : Char) : Bool :=
  let n := c.toNat
  (65 ≤ n && n ≤ 90) || (97 ≤ n && n ≤ 122) || (48 ≤ n && n ≤ 57) || n = 95

/-- `String.prototype.toLowerCase`, restricted to its action on the
characters the program manipulates (ASCII letters; Korean syllables and all
punctuation are fixed points of JavaScript's `toLowerCase` as well). -/
def jsToLower (c : Char) : Char :=
  if 65 ≤ c.toNat ∧ c.toNat ≤ 90 then Char.ofNat (c.toNat + 32) else c

/-- `String.prototype.trim`: drop leading and trailing whitespace. -/
def jsTrim (s : List Char) : List Char :=
  (((s.dropWhile jsIsSpace).reverse).dropWhile jsIsSpace).reverse

/-- Worker for `collapseWs`; the flag records whether the previous character
was whitespace (in which case further whitespace is swallowed). -/
def collapseWsAux : Bool → List Char → List Char
  | _, [] => []
  | prevWs, c :: rest =>
    if jsIsSpace c then
      if prevWs then collapseWsAux true rest else ' ' :: collapseWsAux true rest
    else c :: collapseWsAux false rest

/-- `.replace(/\s+/g, ' ')`: every maximal whitespace run becomes one space. -/
def collapseWs (s : List Char) : List Char := collapseWsAux false s

/-- `.replace(/\s+/g, '')`: remove all whitespace. -/
def removeWs (s : List Char) : List Char := s.filter (fun c => !jsIsSpace c)

/-- `String.prototype.split(c)` (single-character separator). -/
def splitCh (c : Char) : List Char → List (List Char)
  | [] => [[]]
  | a :: rest =>
    match splitCh c rest with
    | [] => [[]]
    | h :: t => if a = c then [] :: h :: t else (a :: h) :: t

/-- `Array.prototype.join('\n')`. -/
def joinNl : List (List Char) → List Char
  | [] => []
  | [l] => l
  | l :: rest => l ++ '\n' :: joinNl rest

/-- Worker for `dedupFirst`: `seen` holds the elements already emitted. -/
def dedupFirstAux (seen : List (List Char)) : List (List Char) → List (List Char)
  | [] => []
  | a :: rest =>
    if seen.contains a then dedupFirstAux seen rest
    else a :: dedupFirstAux (a :: seen) rest

/-- `[...new Set(xs)]`: deduplicate keeping the first occurrence of each
element, preserving order. -/
def dedupFirst (l : List (List Char)) : List (List Char) := dedupFirstAux [] l

/-- `String.prototype.includes(needle)`: substring containment test. -/
def isContained (needle : List Char) : List Char → Bool
  | [] => needle.isEmpty
  | c :: rest => needle.isPrefixOf (c :: rest) || isContained needle rest

/-- Substring containment, as a proposition. -/
def SubSeq (needle hay : List Char) : Prop := ∃ u v, hay = u ++ needle ++ v

def MAX_QUESTION_LENGTH : Nat := 500

def MAX_CONTEXT_LINES : Nat := 20

def MAX_CONTEXT_CHARS : Nat := 4000

/-- The characters of the class `["'`“”‘’[\]{}()<>]` (the plain apostrophe,
backtick and curly braces are written via their code points). -/
def isQuoteBracket (c : Char) : Bool :=
  c = '"' || c = Char.ofNat 39 || c = Char.ofNat 96 || c = '“' || c = '”' ||
    c = '‘' || c = '’' || c = '[' || c = ']' || c = Char.ofNat 123 ||
    c = Char.ofNat 125 || c = '(' || c = ')' || c = '<' || c = '>'

/-- The class `[\p{L}\p{N}\s]`, restricted to the scripts this repository's
data actually contains: ASCII letters and digits, Hangul syllables and jamo,
plus JavaScript whitespace.  Characters of other scripts are treated as
non-letters. -/
def isLetterDigitWs (c : Char) : Bool :=
  let n := c.toNat
  (65 ≤ n && n ≤ 90) || (97 ≤ n && n ≤ 122) || (48 ≤ n && n ≤ 57) ||
    (0xAC00 ≤ n && n ≤ 0xD7A3) || (0x1100 ≤ n && n ≤ 0x11FF) ||
    (0x3130 ≤ n && n ≤ 0x318F) || jsIsSpace c

/-- `normalizeForSearch`: lowercase, turn quotes/brackets into spaces, turn
every remaining non-letter/digit/whitespace character into a space, collapse
whitespace runs, trim. -/
def normalizeForSearch (text : List Char) : List Char :=
  jsTrim (collapseWs
    (((text.map jsToLower).map (fun c => if isQuoteBracket c then ' ' else c)).map
      (fun c => if isLetterDigitWs c then c else ' ')))

/-- The alternatives of `/(입니다|입니까|합니다|합니까|했나요|했습니까)$/gu`. -/
def sentenceEndings : List (List Char) :=
  (["입니다", "입니까", "합니다", "합니까", "했나요", "했습니까"] : List String).map
    String.toList

/-- The alternatives of the particle-stripping regex
`/(은|는|이|가|을|를|에|에서|으로|로|와|과|도|만|뿐|부터|까지|에게|께|한테|이나|나|라고|이라고|이라|라서|랑|이랑|하고|하며|이고|거나|지만|라도|라도요|라도요|네요|나요|죠|요|다|까)$/gu`. -/
def particleSuffixes : List (List Char) :=
  (["은", "는", "이", "가", "을", "를", "에", "에서", "으로", "로", "와", "과", "도",
    "만", "뿐", "부터", "까지", "에게", "께", "한테", "이나", "나", "라고", "이라고",
    "이라", "라서", "랑", "이랑", "하고", "하며", "이고", "거나", "지만", "라도",
    "라도요", "라도요", "네요", "나요", "죠", "요", "다", "까"] : List String).map
    String.toList

/-- The longest alternative that is a suffix of `s` (`none` when no
alternative is a suffix). -/
def bestSuffix (alts : List (List Char)) (s : List Char) : Option (List Char) :=
  alts.foldl
    (fun best a =>
      if a.isSuffixOf s then
        match best with
        | none => some a
        | some b => if b.length < a.length then some a else some b
      else best)
    none

/-- One application of an end-anchored alternation regex
`/(w₁|w₂|…)$/`, replacing the match with the empty string: the regex engine
scans left to right, so the leftmost — that is, longest — alternative that is
a suffix gets removed. -/
def removeSuffixAlt (alts : List (List Char)) (s : List Char) : List Char :=
  match bestSuffix alts s with
  | none => s
  | some a => s.take (s.length - a.length)

/-- `stripKoreanParticles`: normalize the two contracted verb stems, drop a
formal sentence-ending suffix, drop a grammatical particle suffix, and keep
the result only when it still has at least two characters. -/
def stripKoreanParticles (token : List Char) : List Char :=
  if token.isEmpty then token
  else
    let r0 := token.map (fun c => if c = '돼' then '되' else c)
    let r1 := (r0.map (fun c => if c = '됐' then ['되', '었'] else [c])).flatten
    let r2 := removeSuffixAlt sentenceEndings r1
    let r3 := removeSuffixAlt particleSuffixes r2
    if 2 ≤ r3.length then r3 else token

/-- `tokenize`: normalize, split on spaces, strip particles, keep tokens of
length ≥ 2, deduplicate preserving first occurrence (`[...new Set(...)]`). -/
def tokenize (text : List Char) : List (List Char) :=
  dedupFirst
    (((splitCh ' ' (normalizeForSearch text)).map stripKoreanParticles).filter
      (fun t => 2 ≤ t.length))

/-- `normalizedQuestion`: the trimmed question, lowercased. -/
def lightQuestion (q : List Char) : List Char := (jsTrim q).map jsToLower

/-- `collapsedQuestion`: the lowercased trimmed question with all
whitespace removed. -/
def collapsedQuestion (q : List Char) : List Char := removeWs (lightQuestion q)

/-- The light normalization used for direct matching (`normalizedLine` in the scorer): collapse whitespace runs, lowercase. -/
def lightNormalize (line : List Char) : List Char := (collapseWs line).map jsToLower

/-- `collapsedLine`: the lowercased line with all whitespace removed. -/
def collapsedLine (line : List Char) : List Char := removeWs (lightNormalize line)

/-- The `directMatch` test of the scorer: light containment, or — when the
whitespace-free question is non-empty — whitespace-free containment. -/
def directMatchB (q line : List Char) : Bool :=
  isContained (lightQuestion q) (lightNormalize line) ||
    (!(collapsedQuestion q).isEmpty &&
      isContained (collapsedQuestion q) (collapsedLine line))

/-- `questionTokens`: tokens of the trimmed question. -/
def questionTokens (q : List Char) : List (List Char) := tokenize (jsTrim q)

/-- One question token matching one line token: character equality, or — when
both have length ≥ 2 — substring containment either way. -/
def tokenMatches (qt lt : List Char) : Bool :=
  lt == qt ||
    (2 ≤ lt.length && 2 ≤ qt.length && (isContained qt lt || isContained lt qt))

/-- `sharedTokens.length`: the number of question tokens that match at least
one token of the line. -/
def sharedCount (q line : List Char) : Nat :=
  ((questionTokens q).filter
    (fun qt => (tokenize line).any (fun lt => tokenMatches qt lt))).length

/-- The per-line score of `matchesWithScore`: 3 on a direct match; otherwise
the shared-token count when it reaches `minRequired` (1 for questions of ≤ 4
tokens, 2 otherwise), and 0 when either token collection is empty or the
count falls short. -/
def score (q line : List Char) : Nat :=
  if directMatchB q line then 3
  else if (questionTokens q).isEmpty then 0
  else if (tokenize line).isEmpty then 0
  else
    let shared := sharedCount q line
    let minRequired := if (questionTokens q).length ≤ 4 then 1 else 2
    if minRequired ≤ shared then shared else 0

/-- Stable insertion for a descending sort on the score component: the new
element (which comes from earlier in the original list) goes in front of the
first element whose score does not exceed it. -/
def insDesc (x : List Char × Nat) : List (List Char × Nat) → List (List Char × Nat)
  | [] => [x]
  | y :: rest => if y.2 ≤ x.2 then x :: y :: rest else y :: insDesc x rest

/-- Stable descending sort by score.  `Array.prototype.sort` with comparator
`(a, b) => b.score - a.score` is required to be stable by the ECMAScript
specification; right-to-left insertion reproduces that order. -/
def sortByScoreDesc (l : List (List Char × Nat)) : List (List Char × Nat) :=
  l.foldr insDesc []

/-- The `(line, score)` pairs with positive score, in corpus order
(`lines.map(...).filter(({score}) => score > 0)`). -/
def scoredLines (q : List Char) (corpus : List (List Char)) :
    List (List Char × Nat) :=
  (corpus.map (fun line => (line, score q line))).filter (fun p => decide (0 < p.2))

/-- `matched`: the positively scoring lines sorted by descending score,
ties in corpus order. -/
def rank (q : List Char) (corpus : List (List Char)) : List (List Char) :=
  (sortByScoreDesc (scoredLines q corpus)).map Prod.fst

/-- `buildContextSnippet`: empty input gives the empty string; otherwise take
the first 20 lines, trim each, drop the ones that became empty, join with
newlines, and when the join exceeds 4000 characters cut it to 4000 and append
a newline and `...`. -/
def buildContextSnippet (matched : List (List Char)) : List Char :=
  if matched.isEmpty then []
  else
    let lines := ((matched.take MAX_CONTEXT_LINES).map jsTrim).filter
      (fun l => !l.isEmpty)
    let snippet := joinNl lines
    if MAX_CONTEXT_CHARS < snippet.length then
      snippet.take MAX_CONTEXT_CHARS ++ '\n' :: "...".toList
    else snippet

def notFoundMsg : List Char := "관련 가이드라인을 찾지 못했습니다.".toList

/-- `fallbackAnswer`: the trimmed matched lines joined with newlines when any
line matched, a fixed notice otherwise. -/
def fallbackAnswer (matched : List (List Char)) : List Char :=
  if 0 < matched.length then joinNl (matched.map jsTrim) else notFoundMsg

/-- The answer produced when no generative-AI key is configured
(`generativeAI` is `null`): the local fallback over the ranked lines. -/
def localAnswer (q : List Char) (corpus : List (List Char)) : List Char :=
  fallbackAnswer (rank q corpus)

/-! ### Input validation: the `BLOCKED_PATTERNS` regexes

Each regex is translated to a position matcher `Option Char → List Char → Bool`
taking the previous character (needed for `\b`) and the suffix at the current
position, and `regexTest` tries every position.  All patterns except `/\.\./`
carry the `i` flag; matching is performed on the lowercased input, which is
also correct for `/\.\./` since lowercasing fixes `'.'`.  Greedy `\s*`/`\s+`
gaps are modelled by consuming the whole whitespace run, which is exact here
because every gap is followed by a literal starting with a non-whitespace
character (or ends the pattern). -/

def dropWs (s : List Char) : List Char := s.dropWhile jsIsSpace

/-- Match a literal word, then continue. -/
def litThen (w : String) (k : List Char → Bool) (s : List Char) : Bool :=
  w.toList.isPrefixOf s && k (s.drop w.toList.length)

/-- `\s*` then continue. -/
def wsStarThen (k : List Char → Bool) (s : List Char) : Bool := k (dropWs s)

/-- `\s+` then continue. -/
def wsPlusThen (k : List Char → Bool) : List Char → Bool
  | [] => false
  | c :: rest => jsIsSpace c && k (dropWs rest)

/-- The end of a pattern. -/
def matchEnd (_ : List Char) : Bool := true

/-- `[^\n]+` then continue (with full backtracking). -/
def gapThen (k : List Char → Bool) : List Char → Bool
  | [] => false
  | c :: rest => c ≠ '\n' && (k rest || gapThen k rest)

/-- `\b` directly after a word character: the next character must be missing
or a non-word character. -/
def wordBoundaryThen (k : List Char → Bool) (s : List Char) : Bool :=
  match s with
  | [] => k []
  | c :: _ => !isWordChar c && k s

/-- `\b` directly before a word character: the previous character must be
missing or a non-word character. -/
def boundaryBefore (prev : Option Char) : Bool :=
  match prev with
  | none => true
  | some c => !isWordChar c

/-- Try the position matcher at every position of the string. -/
def searchFrom (p : Option Char → List Char → Bool) :
    Option Char → List Char → Bool
  | prev, [] => p prev []
  | prev, c :: rest => p prev (c :: rest) || searchFrom p (some c) rest

/-- `RegExp.prototype.test`. -/
def regexTest (p : Option Char → List Char → Bool) (s : List Char) : Bool :=
  searchFrom p none s

/-- Lift a matcher that ignores the previous character. -/
def atAny (m : List Char → Bool) : Option Char → List Char → Bool :=
  fun _ s => m s

/-- `/system\s*prompt/i` -/
def bp1 : Option Char → List Char → Bool :=
  atAny (litThen "system" (wsStarThen (litThen "prompt" matchEnd)))

/-- `/ignore\s+previous\s+instructions/i` -/
def bp2 : Option Char → List Char → Bool :=
  atAny (litThen "ignore" (wsPlusThen (litThen "previous"
    (wsPlusThen (litThen "instructions" matchEnd)))))

/-- `/reset\s+instruction/i` -/
def bp3 : Option Char → List Char → Bool :=
  atAny (litThen "reset" (wsPlusThen (litThen "instruction" matchEnd)))

/-- `/\/etc\//i` -/
def bp4 : Option Char → List Char → Bool := atAny (litThen "/etc/" matchEnd)

/-- `/\.\./` -/
def bp5 : Option Char → List Char → Bool := atAny (litThen ".." matchEnd)

/-- `/<\s*script/i` -/
def bp6 : Option Char → List Char → Bool :=
  atAny (litThen "<" (wsStarThen (litThen "script" matchEnd)))

/-- `/forget\s+all\s+previous\s+rules/i` -/
def bp7 : Option Char → List Char → Bool :=
  atAny (litThen "forget" (wsPlusThen (litThen "all" (wsPlusThen
    (litThen "previous" (wsPlusThen (litThen "rules" matchEnd)))))))

/-- `/unfiltered\s+mode/i` -/
def bp8 : Option Char → List Char → Bool :=
  atAny (litThen "unfiltered" (wsPlusThen (litThen "mode" matchEnd)))

/-- `/sudo\s+/i` -/
def bp9 : Option Char → List Char → Bool :=
  atAny (litThen "sudo" (wsPlusThen matchEnd))

/-- `/\b(base64|hex)\b\s*(decode|decoding)/i` -/
def bp10 : Option Char → List Char → Bool :=
  fun prev s =>
    boundaryBefore prev &&
      (litThen "base64" (wordBoundaryThen (wsStarThen
          (fun t => litThen "decode" matchEnd t || litThen "decoding" matchEnd t))) s ||
        litThen "hex" (wordBoundaryThen (wsStarThen
          (fun t => litThen "decode" matchEnd t || litThen "decoding" matchEnd t))) s)

/-- `/prompt\s*injection/i` -/
def bp11 : Option Char → List Char → Bool :=
  atAny (litThen "prompt" (wsStarThen (litThen "injection" matchEnd)))

/-- `/\b(get|read|show)\b[^\n]+(password|secret|token|credential)/i` -/
def bp12 : Option Char → List Char → Bool :=
  fun prev s =>
    let tail := wordBoundaryThen (gapThen
      (fun t => litThen "password" matchEnd t || litThen "secret" matchEnd t ||
        litThen "token" matchEnd t || litThen "credential" matchEnd t))
    boundaryBefore prev &&
      (litThen "get" tail s || litThen "read" tail s || litThen "show" tail s)

/-- `/(?:이전|모든)\s*(지시|규칙)\s*(무시|잊|삭제)/i` -/
def bp13 : Option Char → List Char → Bool :=
  atAny (fun s =>
    let last := wsStarThen (fun t => litThen "무시" matchEnd t ||
      litThen "잊" matchEnd t || litThen "삭제" matchEnd t)
    let mid := wsStarThen (fun t => litThen "지시" last t || litThen "규칙" last t)
    litThen "이전" mid s || litThen "모든" mid s)

/-- `/이전\s*규칙\s*따르지\s*마/i` -/
def bp14 : Option Char → List Char → Bool :=
  atAny (litThen "이전" (wsStarThen (litThen "규칙" (wsStarThen
    (litThen "따르지" (wsStarThen (litThen "마" matchEnd)))))))

/-- `/이전\s*명령을\s*상쇄/i` -/
def bp15 : Option Char → List Char → Bool :=
  atAny (litThen "이전" (wsStarThen (litThen "명령을" (wsStarThen
    (litThen "상쇄" matchEnd)))))

/-- `/ignore\s+the\s+rules/i` -/
def bp16 : Option Char → List Char → Bool :=
  atAny (litThen "ignore" (wsPlusThen (litThen "the"
    (wsPlusThen (litThen "rules" matchEnd)))))

/-- The ordered `BLOCKED_PATTERNS` list. -/
def BLOCKED_PATTERNS : List (Option Char → List Char → Bool) :=
  [bp1, bp2, bp3, bp4, bp5, bp6, bp7, bp8, bp9, bp10, bp11, bp12, bp13, bp14,
    bp15, bp16]

/-- `BLOCKED_PATTERNS.some((pattern) => pattern.test(trimmed))`. -/
def blockedAny (t : List Char) : Bool :=
  BLOCKED_PATTERNS.any (fun p => regexTest p (t.map jsToLower))

/-- A JSON value handed to `validateQuestion`: a string, or anything whose
`typeof` is not `'string'`. -/
inductive JsInput where
  | str (s : List Char)
  | nonString
deriving DecidableEq

def msgNotString : List Char := "질문은 문자열이어야 합니다.".toList

def msgEmpty : List Char := "빈 질문은 허용되지 않습니다.".toList

/-- The length error with `MAX_QUESTION_LENGTH = 500` interpolated. -/
def msgTooLong : List Char := "질문은 최대 500자까지 허용됩니다.".toList

def msgBlocked : List Char := "허용되지 않는 패턴이 감지되었습니다.".toList

/-- `validateQuestion`: `none` means the question is accepted. -/
def validateQuestion : JsInput → Option (List Char)
  | .nonString => some msgNotString
  | .str q =>
    let trimmed := jsTrim q
    if trimmed.isEmpty then some msgEmpty
    else if MAX_QUESTION_LENGTH < trimmed.length then some msgTooLong
    else if blockedAny trimmed then some msgBlocked
    else none

/-! ### Output sanitization: the `forbidden` regexes of `sanitizeOutput`

All eight forbidden regexes share one shape: literal words (or an ordered
alternation of literal words) separated by `\s*` or `\s+` gaps.  They are
represented by the small AST `SPat`, whose matcher `matchLen` returns the
length of the (greedy, leftmost-alternative) match at the current position —
exactly the match the JavaScript engine produces for regexes of this shape,
since every gap is followed by a literal starting with a non-whitespace
character.  Matching is case-insensitive (`i` flag) while replacement happens
in the original text, so the matcher lowercases only for comparison. -/

inductive SPat where
  | lits : List (List Char) → SPat
  | seqG : SPat → Bool → SPat → SPat

/-- Case-insensitive literal prefix test. -/
def isPrefixCI (w s : List Char) : Bool :=
  (s.take w.length).map jsToLower == w

/-- First alternative of an ordered alternation that matches at this
position, with its length. -/
def firstAlt : List (List Char) → List Char → Option Nat
  | [], _ => none
  | w :: ws, s => if isPrefixCI w s then some w.length else firstAlt ws s

/-- Length of the match of a pattern at the current position (`none` when the
pattern does not match here).  `seqG a plus b` is `a\s*b` when `plus = false`
and `a\s+b` when `plus = true`. -/
def matchLen : SPat → List Char → Option Nat
  | .lits ws, s => firstAlt ws s
  | .seqG a plus b, s =>
    match matchLen a s with
    | none => none
    | some na =>
      let rest := s.drop na
      let k := (rest.takeWhile jsIsSpace).length
      if plus && k == 0 then none
      else
        match matchLen b (rest.drop k) with
        | none => none
        | some nb => some (na + k + nb)

/-- `String.prototype.replace` with a `g`-flagged regex: scan left to right,
replace each match and resume after it.  (Every forbidden pattern matches at
least one character, so the `some (n + 1)` arm is the only live match arm.) -/
def replaceAll (p : SPat) (m : List Char) : List Char → List Char
  | [] => []
  | c :: rest =>
    match matchLen p (c :: rest) with
    | some (n + 1) => m ++ replaceAll p m (rest.drop n)
    | _ => c :: replaceAll p m rest
termination_by s => s.length
decreasing_by
  · simp only [List.length_drop, List.length_cons]
    omega
  · simp

/-- `/system\s*prompt/gi` -/
def sp1 : SPat := .seqG (.lits ["system".toList]) false (.lits ["prompt".toList])

/-- `/internal\s*(instruction|guideline)/gi` -/
def sp2 : SPat :=
  .seqG (.lits ["internal".toList]) false
    (.lits ["instruction".toList, "guideline".toList])

/-- `/api\s*(key|token)/gi` -/
def sp3 : SPat :=
  .seqG (.lits ["api".toList]) false (.lits ["key".toList, "token".toList])

/-- `/password/gi` -/
def sp4 : SPat := .lits ["password".toList]

/-- `/credential/gi` -/
def sp5 : SPat := .lits ["credential".toList]

/-- `/secret/gi` -/
def sp6 : SPat := .lits ["secret".toList]

/-- `/ignore\s+all\s+previous\s+instructions/gi` -/
def sp7 : SPat :=
  .seqG (.lits ["ignore".toList]) true
    (.seqG (.lits ["all".toList]) true
      (.seqG (.lits ["previous".toList]) true (.lits ["instructions".toList])))

/-- `/이전\s*지시를\s*무시/gi` -/
def sp8 : SPat :=
  .seqG (.lits ["이전".toList]) false
    (.seqG (.lits ["지시를".toList]) false (.lits ["무시".toList]))

/-- The ordered `forbidden` list of `sanitizeOutput`. -/
def FORBIDDEN : List SPat := [sp1, sp2, sp3, sp4, sp5, sp6, sp7, sp8]

/-- The replacement marker `'[검열됨]'`. -/
def redactMarker : List Char := "[검열됨]".toList

/-- `sanitizeOutput`: empty input gives the empty string, otherwise trim and
apply each forbidden pattern's global replacement in order. -/
def sanitizeOutput (text : List Char) : List Char :=
  if text.isEmpty then []
  else FORBIDDEN.foldl (fun acc p => replaceAll p redactMarker acc) (jsTrim text)

/-! ### Sanitizer idempotence (claim C7)

The proof shows that one `sanitizeOutput` pass leaves no match of any
forbidden pattern (matches cannot survive a pattern's own global replacement,
and the redaction marker's characters can neither appear inside a match nor
glue new matches together), so a second pass — whose trim is also the
identity, since replacement preserves non-whitespace ends — changes nothing.
The well-formedness facts used are collected in `wfPatB`/`inertForB` and
checked by `decide` for the eight concrete patterns. -/

/-- All characters appearing in a pattern's literals. -/
def alphList : SPat → List Char
  | .lits ws => ws.flatten
  | .seqG a _ b => alphList a ++ alphList b

/-- Every alternation group lists literals with pairwise distinct first
characters (true of `(instruction|guideline)` and `(key|token)`). -/
def headsDistinctB : List (List Char) → Bool
  | [] => true
  | w :: ws => ws.all (fun w2 => decide (w.head? ≠ w2.head?)) && headsDistinctB ws

/-- Well-formedness of a forbidden pattern: non-empty whitespace-free
literals and distinct-first-character alternations. -/
def wfPatB : SPat → Bool
  | .lits ws => ws.all (fun w => !w.isEmpty && w.all (fun c => !jsIsSpace c)) &&
      headsDistinctB ws
  | .seqG a _ b => wfPatB a && wfPatB b

/-- The marker is non-empty and none of its characters is whitespace or
lowercases into the pattern's literal alphabet. -/
def inertForB (m : List Char) (p : SPat) : Bool :=
  !m.isEmpty && m.all (fun c => !jsIsSpace c && !(alphList p).contains (jsToLower c))

/-- No suffix of `s` matches `p`. -/
def NoMatch (p : SPat) (s : List Char) : Prop :=
  ∀ i : Nat, matchLen p (s.drop i) = none

/-- The first character, if any, is not whitespace. -/
def FirstOk (s : List Char) : Prop :=
  ∀ c, s.head? = some c → jsIsSpace c = false

/-- The last character, if any, is not whitespace. -/
def LastOk (s : List Char) : Prop :=
  ∀ c, s.getLast? = some c → jsIsSpace c = false

theorem jsToLower_toNat (c : Char) :
    (jsToLower c).toNat = if 65 ≤ c.toNat ∧ c.toNat ≤ 90 then c.toNat + 32 else c.toNat := by
  unfold jsToLower
  split
  · next h =>
    have hv : (c.toNat + 32).isValidChar := by
      left
      have := h.2
      omega
    simp [Char.ofNat, hv]
    rfl
  · rfl

theorem jsIsSpace_jsToLower (c : Char) : jsIsSpace (jsToLower c) = jsIsSpace c := by
  unfold jsIsSpace
  rw [jsToLower_toNat]
  split
  · next h =>
    rw [Bool.eq_iff_iff]
    simp only [Bool.or_eq_true, Bool.and_eq_true, decide_eq_true_eq]
    omega
  · rfl

theorem isContained_iff (n h : List Char) : isContained n h = true ↔ SubSeq n h := by
  induction h with
  | nil =>
    simp only [isContained, List.isEmpty_iff, SubSeq]
    constructor
    · rintro rfl; exact ⟨[], [], rfl⟩
    · rintro ⟨u, v, hv⟩
      have := congrArg List.length hv
      simp only [List.length_nil, List.length_append] at this
      exact List.length_eq_zero.mp (by omega)
  | cons c rest ih =>
    simp only [isContained, Bool.or_eq_true, List.isPrefixOf_iff_prefix, ih]
    constructor
    · rintro (⟨t, ht⟩ | ⟨u, v, hv⟩)
      · exact ⟨[], t, by simpa using ht.symm⟩
      · exact ⟨c :: u, v, by simp [hv]⟩
    · rintro ⟨u, v, hv⟩
      cases u with
      | nil => exact Or.inl ⟨v, by simpa using hv.symm⟩
      | cons x u' =>
        simp only [List.cons_append, List.cons.injEq] at hv
        exact Or.inr ⟨u', v, hv.2⟩

theorem SubSeq.removeWs {n h : List Char} (hs : SubSeq n h) :
    SubSeq (Chatbot.removeWs n) (Chatbot.removeWs h) := by
  obtain ⟨u, v, rfl⟩ := hs
  exact ⟨Chatbot.removeWs u, Chatbot.removeWs v, by
    simp [Chatbot.removeWs, List.filter_append]⟩

/-! ### Properties of the context snippet (claims C3, C8) -/

theorem splitCh_length (c : Char) (s : List Char) :
    (splitCh c s).length = s.count c + 1 := by
  induction s with
  | nil => simp [splitCh]
  | cons a rest ih =>
    cases hsp : splitCh c rest with
    | nil => rw [hsp] at ih; exact absurd ih (by simp)
    | cons h t =>
      rw [hsp] at ih
      by_cases hac : a = c
      · subst hac
        simp only [splitCh, hsp, eq_self_iff_true, if_true, List.length_cons,
          List.count_cons_self]
        simp only [List.length_cons] at ih
        omega
      · simp only [splitCh, hsp, if_neg hac, List.length_cons,
          List.count_cons_of_ne (Ne.symm hac)]
        simp only [List.length_cons] at ih
        omega

theorem joinNl_count_nl {ls : List (List Char)} (hnl : ∀ l ∈ ls, '\n' ∉ l)
    (hne : ls ≠ []) : (joinNl ls).count '\n' + 1 = ls.length := by
  induction ls with
  | nil => exact absurd rfl hne
  | cons l rest ih =>
    cases rest with
    | nil =>
      simp only [joinNl, List.length_cons, List.length_nil]
      rw [List.count_eq_zero.mpr (hnl l (by simp))]
    | cons l2 rest2 =>
      have hstep : joinNl (l :: l2 :: rest2) = l ++ '\n' :: joinNl (l2 :: rest2) := rfl
      rw [hstep, List.count_append, List.count_cons_self,
        List.count_eq_zero.mpr (hnl l (by simp))]
      have := ih (fun x hx => hnl x (by simp [hx])) (by simp)
      simp only [List.length_cons] at this ⊢
      omega

theorem mem_jsTrim {c : Char} {s : List Char} (h : c ∈ jsTrim s) : c ∈ s := by
  unfold jsTrim at h
  rw [List.mem_reverse] at h
  have h1 := (List.dropWhile_sublist (l := (s.dropWhile jsIsSpace).reverse)
    (p := jsIsSpace)).mem h
  rw [List.mem_reverse] at h1
  exact (List.dropWhile_sublist (l := s) (p := jsIsSpace)).mem h1

theorem dropWhile_eq_self_of_forall {p : Char → Bool} {s : List Char}
    (h : ∀ c ∈ s, p c = false) : s.dropWhile p = s := by
  cases s with
  | nil => rfl
  | cons a t => simp [List.dropWhile_cons, h a (by simp)]

theorem jsTrim_eq_self_of_forall {s : List Char}
    (h : ∀ c ∈ s, jsIsSpace c = false) : jsTrim s = s := by
  unfold jsTrim
  rw [dropWhile_eq_self_of_forall h,
    dropWhile_eq_self_of_forall (fun c hc => h c (List.mem_reverse.mp hc)),
    List.reverse_reverse]

theorem jsTrim_replicate_a (n : Nat) :
    jsTrim (List.replicate n 'a') = List.replicate n 'a' :=
  jsTrim_eq_self_of_forall (fun c hc => by
    rw [List.eq_of_mem_replicate hc]; rfl)

theorem buildContextSnippet_singleton_long {l : List Char} (h1 : jsTrim l = l)
    (h2 : l ≠ []) (h3 : MAX_CONTEXT_CHARS < l.length) :
    buildContextSnippet [l] = l.take MAX_CONTEXT_CHARS ++ '\n' :: "...".toList := by
  unfold buildContextSnippet
  rw [if_neg (by simp)]
  dsimp only
  rw [show List.take MAX_CONTEXT_LINES [l] = [l] by simp [MAX_CONTEXT_LINES]]
  rw [List.map_cons, List.map_nil, h1]
  have hE : (!l.isEmpty) = true := by
    cases l with
    | nil => exact absurd rfl h2
    | cons a t => rfl
  rw [List.filter_cons, if_pos hE]
  simp only [List.filter_nil]
  rw [show joinNl [l] = l from rfl]
  rw [if_pos h3]

/-- Claim C3 is false as stated: a single 4001-character matched line makes
`buildContextSnippet` return 4004 characters, exceeding the 4000 bound. -/
theorem claim_C3_counterexample :
    MAX_CONTEXT_CHARS <
      (buildContextSnippet [List.replicate 4001 'a']).length := by
  rw [buildContextSnippet_singleton_long (jsTrim_replicate_a 4001)
    (List.ne_nil_of_length_pos (by rw [List.length_replicate]; norm_num))
    (by rw [List.length_replicate]; norm_num [MAX_CONTEXT_CHARS])]
  rw [List.length_append, List.length_take, List.length_replicate]
  norm_num [MAX_CONTEXT_CHARS]

/-- Claim C3, amended: the snippet never exceeds 4004 characters — the 4000
character cut plus the appended newline and three-dot marker. -/
theorem claim_C3 (matched : List (List Char)) :
    (buildContextSnippet matched).length ≤ MAX_CONTEXT_CHARS + 4 := by
  unfold buildContextSnippet
  split
  · simp [MAX_CONTEXT_CHARS]
  · dsimp only
    split
    · next h =>
      simp only [List.length_append, List.length_take, List.length_cons,
        MAX_CONTEXT_CHARS] at h ⊢
      have : min 4000
          (joinNl (List.filter (fun l => !l.isEmpty)
            (List.map jsTrim (List.take MAX_CONTEXT_LINES matched)))).length
          = 4000 := by omega
      simp [this, String.toList]
    · next h =>
      simp only [MAX_CONTEXT_CHARS, not_lt] at h
      simp only [MAX_CONTEXT_CHARS]
      omega

theorem joinNl_cons_of_ne_nil (l : List Char) {rest : List (List Char)}
    (h : rest ≠ []) : joinNl (l :: rest) = l ++ '\n' :: joinNl rest := by
  cases rest with
  | nil => exact absurd rfl h
  | cons r rs => rfl

theorem count_nl_joinNl_le {ls : List (List Char)}
    (hnl : ∀ l ∈ ls, '\n' ∉ l) :
    (joinNl ls).count '\n' + 1 ≤ ls.length + 1 := by
  cases hls : ls with
  | nil => simp [joinNl]
  | cons l rest =>
    rw [← hls]
    have := joinNl_count_nl hnl (by rw [hls]; simp)
    omega

/-- Claim C8, amended: for newline-free input lines the snippet has at most
21 newline-separated segments, and at most 20 whenever no truncation occurred
(the output fits in 4000 characters); the 21st segment can only be the
appended `...` marker. -/
theorem claim_C8 :
    buildContextSnippet [] = [] ∧
    ∀ matched : List (List Char), (∀ l ∈ matched, '\n' ∉ l) →
      (splitCh '\n' (buildContextSnippet matched)).length ≤ MAX_CONTEXT_LINES + 1 ∧
      ((buildContextSnippet matched).length ≤ MAX_CONTEXT_CHARS →
        (splitCh '\n' (buildContextSnippet matched)).length ≤ MAX_CONTEXT_LINES) := by
  refine ⟨rfl, ?_⟩
  intro matched h
  by_cases hemp : matched.isEmpty
  · rw [show buildContextSnippet matched = [] by unfold buildContextSnippet; rw [if_pos hemp]]
    simp [splitCh, MAX_CONTEXT_LINES]
  · set lines := ((matched.take MAX_CONTEXT_LINES).map jsTrim).filter
      (fun l => !l.isEmpty) with hlines
    have hlen : lines.length ≤ MAX_CONTEXT_LINES := by
      calc lines.length ≤ ((matched.take MAX_CONTEXT_LINES).map jsTrim).length :=
            List.length_filter_le _ _
        _ = (matched.take MAX_CONTEXT_LINES).length := List.length_map _ _
        _ ≤ MAX_CONTEXT_LINES := List.length_take_le _ _
    have hnl : ∀ l ∈ lines, '\n' ∉ l := by
      intro l hl
      rw [hlines] at hl
      obtain ⟨x, hx, rfl⟩ := List.mem_map.mp (List.mem_of_mem_filter hl)
      exact fun hc => h x (List.mem_of_mem_take hx) (mem_jsTrim hc)
    have hcount : (joinNl lines).count '\n' + 1 ≤ MAX_CONTEXT_LINES := by
      cases hls : lines with
      | nil => simp [joinNl, MAX_CONTEXT_LINES]
      | cons l rest =>
        rw [← hls]
        have h1 := joinNl_count_nl hnl (by rw [hls]; simp)
        have : lines.length ≤ MAX_CONTEXT_LINES := hlen
        omega
    have hbuild : buildContextSnippet matched =
        if MAX_CONTEXT_CHARS < (joinNl lines).length then
          (joinNl lines).take MAX_CONTEXT_CHARS ++ '\n' :: "...".toList
        else joinNl lines := by
      unfold buildContextSnippet
      rw [if_neg hemp, hlines]
    rw [hbuild]
    split
    · next htr =>
      constructor
      · rw [splitCh_length, List.count_append]
        have h2 : ((('\n' : Char) :: "...".toList).count '\n') = 1 := by decide
        have h3 : (((joinNl lines).take MAX_CONTEXT_CHARS).count '\n') ≤
            (joinNl lines).count '\n' :=
          (List.take_sublist _ _).count_le _
        omega
      · intro hshort
        exfalso
        rw [List.length_append, List.length_take] at hshort
        have : min MAX_CONTEXT_CHARS (joinNl lines).length = MAX_CONTEXT_CHARS := by
          omega
        rw [this] at hshort
        simp [MAX_CONTEXT_CHARS, String.toList] at hshort
    · next htr =>
      rw [splitCh_length]
      omega

theorem claim_C8_witness :
    (splitCh '\n' (buildContextSnippet [['a', 'b'], ['c', 'd']])).length ≤
      MAX_CONTEXT_LINES + 1 ∧
    ((buildContextSnippet [['a', 'b'], ['c', 'd']]).length ≤ MAX_CONTEXT_CHARS →
      (splitCh '\n' (buildContextSnippet [['a', 'b'], ['c', 'd']])).length ≤
        MAX_CONTEXT_LINES) :=
  claim_C8.2 [['a', 'b'], ['c', 'd']] (by decide)

theorem isEmpty_eq_false_of_ne_nil {α : Type} {l : List α} (h : l ≠ []) :
    l.isEmpty = false := by
  cases l with
  | nil => exact absurd rfl h
  | cons a t => rfl

theorem joinNl_replicate_append (n : Nat) (aa big : List Char) :
    joinNl (List.replicate n aa ++ [big]) =
      (List.replicate n (aa ++ ['\n'])).flatten ++ big := by
  induction n with
  | zero => simp [joinNl]
  | succ m ih =>
    rw [List.replicate_succ, List.cons_append,
      joinNl_cons_of_ne_nil _ (by simp), ih, List.replicate_succ,
      List.flatten_cons]
    simp [List.append_assoc]

theorem flatten_replicate_length (n : Nat) (l : List Char) :
    ((List.replicate n l).flatten).length = n * l.length := by
  induction n with
  | zero => simp
  | succ m ih =>
    rw [List.replicate_succ, List.flatten_cons, List.length_append, ih,
      Nat.succ_mul]
    omega

theorem flatten_replicate_count (n : Nat) (l : List Char) (c : Char) :
    ((List.replicate n l).flatten).count c = n * l.count c := by
  induction n with
  | zero => simp
  | succ m ih =>
    rw [List.replicate_succ, List.flatten_cons, List.count_append, ih,
      Nat.succ_mul]
    omega

/-- Claim C8 is false as stated: an input of 21 newline-free lines (19 double
characters, one 4000-character line, one trailing line) produces a snippet
with 21 newline-separated segments — truncation appends a 21st segment. -/
theorem claim_C8_counterexample :
    (List.replicate 19 ['a', 'a'] ++ [List.replicate 4000 'a', ['z', 'z']]).length = 21 ∧
    MAX_CONTEXT_LINES <
      (splitCh '\n' (buildContextSnippet
        (List.replicate 19 ['a', 'a'] ++ [List.replicate 4000 'a', ['z', 'z']]))).length := by
  constructor
  · rw [List.length_append, List.length_replicate]
    rfl
  · have hbig : (List.replicate 4000 'a') ≠ [] :=
      List.ne_nil_of_length_pos (by rw [List.length_replicate]; norm_num)
    have htake : (List.replicate 19 ['a', 'a'] ++
        [List.replicate 4000 'a', ['z', 'z']]).take MAX_CONTEXT_LINES =
        List.replicate 19 ['a', 'a'] ++ [List.replicate 4000 'a'] := by
      rw [List.take_append_eq_append_take,
        List.take_of_length_le (by rw [List.length_replicate]; norm_num [MAX_CONTEXT_LINES]),
        List.length_replicate]
      rfl
    have hmap : (List.replicate 19 ['a', 'a'] ++
        [List.replicate 4000 'a']).map jsTrim =
        List.replicate 19 ['a', 'a'] ++ [List.replicate 4000 'a'] := by
      rw [List.map_append, List.map_replicate,
        show jsTrim ['a', 'a'] = ['a', 'a'] from by decide, List.map_cons,
        List.map_nil, jsTrim_replicate_a]
    have hfilter : (List.replicate 19 ['a', 'a'] ++
        [List.replicate 4000 'a']).filter (fun l => !l.isEmpty) =
        List.replicate 19 ['a', 'a'] ++ [List.replicate 4000 'a'] := by
      apply List.filter_eq_self.mpr
      intro a ha
      rcases List.mem_append.mp ha with h1 | h1
      · rw [List.eq_of_mem_replicate h1]; rfl
      · rw [List.mem_singleton.mp h1, isEmpty_eq_false_of_ne_nil hbig]; rfl
    have hjoin := joinNl_replicate_append 19 ['a', 'a'] (List.replicate 4000 'a')
    have hPlen : ((List.replicate 19 (['a', 'a'] ++ ['\n'])).flatten).length = 57 := by
      rw [flatten_replicate_length]; rfl
    have hsnlen : (joinNl (List.replicate 19 ['a', 'a'] ++
        [List.replicate 4000 'a'])).length = 4057 := by
      rw [hjoin, List.length_append, hPlen, List.length_replicate]
    have hbuild : buildContextSnippet
        (List.replicate 19 ['a', 'a'] ++ [List.replicate 4000 'a', ['z', 'z']]) =
        (joinNl (List.replicate 19 ['a', 'a'] ++
          [List.replicate 4000 'a'])).take MAX_CONTEXT_CHARS ++
          '\n' :: "...".toList := by
      unfold buildContextSnippet
      rw [if_neg (by
        rw [isEmpty_eq_false_of_ne_nil
          (List.append_ne_nil_of_right_ne_nil _ (List.cons_ne_nil _ _))]
        exact Bool.false_ne_true)]
      dsimp only
      rw [htake, hmap, hfilter, if_pos (by rw [hsnlen]; norm_num [MAX_CONTEXT_CHARS])]
    rw [hbuild, splitCh_length, List.count_append]
    have hc1 : (('\n' :: "...".toList).count '\n') = 1 := by decide
    have hc2 : ((joinNl (List.replicate 19 ['a', 'a'] ++
        [List.replicate 4000 'a'])).take MAX_CONTEXT_CHARS).count '\n' = 19 := by
      rw [hjoin, List.take_append_eq_append_take,
        List.take_of_length_le (by rw [hPlen]; norm_num [MAX_CONTEXT_CHARS]),
        List.count_append, flatten_replicate_count,
        show (['a', 'a'] ++ ['\n']).count '\n' = 1 from by decide]
      have : ((List.replicate 4000 'a').take
          (MAX_CONTEXT_CHARS - ((List.replicate 19 (['a', 'a'] ++ ['\n'])).flatten).length)).count '\n' = 0 := by
        apply List.count_eq_zero.mpr
        intro hmem
        have := List.eq_of_mem_replicate ((List.take_sublist _ _).mem hmem)
        exact absurd this (by decide)
      rw [this]
    rw [hc1, hc2]
    simp [MAX_CONTEXT_LINES]

/-! ### The local fallback answer (claim C4) -/

/-- Claim C4 is false as stated: with no provider configured, a corpus of 21
matching lines yields a fallback answer that joins all 21 trimmed lines, while
the bounded context snippet keeps only 20 — the local answer is not the
snippet. -/
theorem claim_C4_counterexample :
    rank ['h', 'i'] (List.replicate 21 ['h', 'i']) ≠ [] ∧
    localAnswer ['h', 'i'] (List.replicate 21 ['h', 'i']) ≠
      buildContextSnippet (rank ['h', 'i'] (List.replicate 21 ['h', 'i'])) := by
  decide

/-- Claim C4, amended: the local fallback answer is the *unbounded*
newline-join of all trimmed matched lines; it coincides with the bounded
context snippet only when the 20-line and 4000-character bounds do not bite
and no line trims to empty. -/
theorem claim_C4 (matched : List (List Char)) (hne : matched ≠ []) :
    fallbackAnswer matched = joinNl (matched.map jsTrim) ∧
    (matched.length ≤ MAX_CONTEXT_LINES →
      (∀ l ∈ matched, (jsTrim l).isEmpty = false) →
      (joinNl (matched.map jsTrim)).length ≤ MAX_CONTEXT_CHARS →
      fallbackAnswer matched = buildContextSnippet matched) := by
  have hfb : fallbackAnswer matched = joinNl (matched.map jsTrim) := by
    unfold fallbackAnswer
    rw [if_pos (List.length_pos.mpr hne)]
  refine ⟨hfb, ?_⟩
  intro h20 hnemp hlen
  rw [hfb]
  unfold buildContextSnippet
  rw [if_neg (by rw [isEmpty_eq_false_of_ne_nil hne]; exact Bool.false_ne_true)]
  dsimp only
  rw [List.take_of_length_le h20]
  rw [List.filter_eq_self.mpr (by
    intro x hx
    obtain ⟨l, hl, rfl⟩ := List.mem_map.mp hx
    rw [hnemp l hl]
    rfl)]
  rw [if_neg (by omega)]

theorem claim_C4_witness :
    fallbackAnswer [['a', 'b']] = joinNl ([['a', 'b']].map jsTrim) ∧
    fallbackAnswer [['a', 'b']] = buildContextSnippet [['a', 'b']] :=
  ⟨(claim_C4 [['a', 'b']] (by decide)).1,
    (claim_C4 [['a', 'b']] (by decide)).2 (by decide) (by decide) (by decide)⟩

/-! ### Input validation (claims C5, C6) -/

/-- Claim C5: `validateQuestion` rejects exactly the non-strings, the
questions whose trimmed form is empty, longer than 500 characters, or
matching a blocked pattern — checked in that order, so any over-long string
gets the length message. -/
theorem claim_C5 (s : List Char) :
    ((validateQuestion (.str s)).isSome = true ↔
      (jsTrim s = [] ∨ MAX_QUESTION_LENGTH < (jsTrim s).length ∨
        blockedAny (jsTrim s) = true)) ∧
    (validateQuestion JsInput.nonString).isSome = true ∧
    (MAX_QUESTION_LENGTH < (jsTrim s).length →
      validateQuestion (.str s) = some msgTooLong) := by
  refine ⟨?_, rfl, ?_⟩
  · unfold validateQuestion
    dsimp only
    split_ifs with h1 h2 h3
    · exact iff_of_true rfl (Or.inl (List.isEmpty_iff.mp h1))
    · exact iff_of_true rfl (Or.inr (Or.inl h2))
    · exact iff_of_true rfl (Or.inr (Or.inr h3))
    · apply iff_of_false
      · simp
      · rintro (h | h | h)
        · exact h1 (by rw [h]; rfl)
        · exact h2 h
        · exact h3 h
  · intro h
    unfold validateQuestion
    dsimp only
    rw [if_neg, if_pos h]
    intro hemp
    rw [List.isEmpty_iff.mp hemp] at h
    simp [MAX_QUESTION_LENGTH] at h

theorem claim_C5_witness :
    validateQuestion (.str (List.replicate 501 'a')) = some msgTooLong :=
  (claim_C5 (List.replicate 501 'a')).2.2
    (by rw [jsTrim_replicate_a, List.length_replicate]; norm_num [MAX_QUESTION_LENGTH])

/-- Claim C6: any two questions that pass the string/empty/length checks and
match some blocked pattern (not necessarily the same one) get the identical
fixed error message, which names no pattern. -/
theorem claim_C6 (q1 q2 : List Char)
    (h1 : jsTrim q1 ≠ []) (h2 : (jsTrim q1).length ≤ MAX_QUESTION_LENGTH)
    (h3 : blockedAny (jsTrim q1) = true)
    (h4 : jsTrim q2 ≠ []) (h5 : (jsTrim q2).length ≤ MAX_QUESTION_LENGTH)
    (h6 : blockedAny (jsTrim q2) = true) :
    validateQuestion (.str q1) = some msgBlocked ∧
    validateQuestion (.str q1) = validateQuestion (.str q2) := by
  have key : ∀ q : List Char, jsTrim q ≠ [] →
      (jsTrim q).length ≤ MAX_QUESTION_LENGTH → blockedAny (jsTrim q) = true →
      validateQuestion (.str q) = some msgBlocked := by
    intro q hq1 hq2 hq3
    unfold validateQuestion
    dsimp only
    rw [if_neg (by rw [isEmpty_eq_false_of_ne_nil hq1]; exact Bool.false_ne_true),
      if_neg (by omega), if_pos hq3]
  rw [key q1 h1 h2 h3, key q2 h4 h5 h6]
  exact ⟨rfl, rfl⟩

theorem claim_C6_witness :
    validateQuestion (.str "a..b".toList) = some msgBlocked ∧
    validateQuestion (.str "a..b".toList) =
      validateQuestion (.str "sudo rm".toList) :=
  claim_C6 "a..b".toList "sudo rm".toList (by decide) (by decide) (by decide)
    (by decide) (by decide) (by decide)

/-! ### Direct matching (claim C1) -/

theorem removeWs_collapseWsAux (b : Bool) (s : List Char) :
    removeWs (collapseWsAux b s) = removeWs s := by
  induction s generalizing b with
  | nil => rfl
  | cons c rest ih =>
    rw [collapseWsAux]
    by_cases hc : jsIsSpace c
    · rw [if_pos hc]
      have hrc : removeWs (c :: rest) = removeWs rest := by
        unfold removeWs
        rw [List.filter_cons, if_neg (by rw [hc]; exact Bool.false_ne_true)]
      have hsp : removeWs (' ' :: collapseWsAux true rest) =
          removeWs (collapseWsAux true rest) := by
        unfold removeWs
        rw [List.filter_cons, if_neg (by decide)]
      cases b
      · rw [if_neg (by decide), hsp, ih, hrc]
      · rw [if_pos rfl, ih, hrc]
    · rw [if_neg hc]
      have hcb : (!jsIsSpace c) = true := by
        rw [Bool.not_eq_true']
        exact Bool.of_not_eq_true hc
      unfold removeWs
      rw [List.filter_cons, List.filter_cons, if_pos hcb, if_pos hcb]
      rw [show (collapseWsAux false rest).filter (fun c => !jsIsSpace c) =
        removeWs (collapseWsAux false rest) from rfl, ih]
      rfl

theorem removeWs_map_jsToLower (s : List Char) :
    removeWs (s.map jsToLower) = (removeWs s).map jsToLower := by
  unfold removeWs
  rw [List.filter_map]
  congr 1
  apply List.filter_congr
  intro c _
  simp [Function.comp, jsIsSpace_jsToLower c]

theorem removeWs_lightNormalize (s : List Char) :
    removeWs (lightNormalize s) = removeWs (s.map jsToLower) := by
  unfold lightNormalize collapseWs
  rw [removeWs_map_jsToLower, removeWs_collapseWsAux, ← removeWs_map_jsToLower]

theorem trimmed_cons_head {a : Char} {t : List Char}
    (hq : jsTrim (a :: t) = a :: t) : jsIsSpace a = false := by
  by_contra hws
  rw [Bool.not_eq_false] at hws
  have h1 : (List.dropWhile jsIsSpace (a :: t)).length ≤ t.length := by
    rw [List.dropWhile_cons, if_pos hws]
    exact (List.dropWhile_sublist _).length_le
  have h2 : (jsTrim (a :: t)).length ≤
      (List.dropWhile jsIsSpace (a :: t)).length := by
    unfold jsTrim
    rw [List.length_reverse]
    calc (List.dropWhile jsIsSpace
          ((List.dropWhile jsIsSpace (a :: t)).reverse)).length
        ≤ ((List.dropWhile jsIsSpace (a :: t)).reverse).length :=
          (List.dropWhile_sublist _).length_le
      _ = _ := List.length_reverse _
  rw [hq] at h2
  simp only [List.length_cons] at h2
  omega

theorem collapsedQuestion_ne_nil {q : List Char} (hq : jsTrim q = q)
    (hne : q ≠ []) : collapsedQuestion q ≠ [] := by
  obtain ⟨a, t, rfl⟩ : ∃ a t, q = a :: t := by
    cases q with
    | nil => exact absurd rfl hne
    | cons a t => exact ⟨a, t, rfl⟩
  have ha : jsIsSpace a = false := trimmed_cons_head hq
  unfold collapsedQuestion lightQuestion removeWs
  rw [hq, List.map_cons, List.filter_cons,
    if_pos (by rw [jsIsSpace_jsToLower, ha]; rfl)]
  exact List.cons_ne_nil _ _

theorem collapsedQuestion_eq {q : List Char} (hq : jsTrim q = q) :
    removeWs (lightNormalize q) = collapsedQuestion q := by
  rw [removeWs_lightNormalize]
  unfold collapsedQuestion lightQuestion
  rw [hq]

/-- Claim C1: when the light-normalized (lowercased, whitespace-collapsed)
trimmed question occurs as a substring of the light-normalized line, the
direct-match test fires and the score is exactly 3 — the token-overlap step
is never consulted. -/
theorem claim_C1 (q line : List Char) (hq : jsTrim q = q) (hne : q ≠ [])
    (hsub : SubSeq (lightNormalize q) (lightNormalize line)) :
    directMatchB q line = true ∧ score q line = 3 := by
  have hsub2 : SubSeq (collapsedQuestion q) (collapsedLine line) := by
    have := SubSeq.removeWs hsub
    rwa [collapsedQuestion_eq hq] at this
  have hdm : directMatchB q line = true := by
    unfold directMatchB
    rw [Bool.or_eq_true]
    right
    rw [Bool.and_eq_true]
    exact ⟨by rw [isEmpty_eq_false_of_ne_nil (collapsedQuestion_ne_nil hq hne)]; rfl,
      (isContained_iff _ _).mpr hsub2⟩
  refine ⟨hdm, ?_⟩
  unfold score
  rw [if_pos hdm]

theorem claim_C1_witness :
    directMatchB ['a', 'b', 'c'] ['z', 'z', 'a', 'b', 'c'] = true ∧
    score ['a', 'b', 'c'] ['z', 'z', 'a', 'b', 'c'] = 3 :=
  claim_C1 ['a', 'b', 'c'] ['z', 'z', 'a', 'b', 'c'] (by decide) (by decide)
    ⟨['z', 'z'], [], by decide⟩

/-! ### Token-overlap scoring thresholds (claims C2, C10) -/

theorem sharedCount_eq_zero_of_no_lineTokens {q line : List Char}
    (h : (tokenize line).isEmpty = true) : sharedCount q line = 0 := by
  unfold sharedCount
  rw [List.isEmpty_iff.mp h]
  simp

/-- Claim C2 is false as stated: the question `"ab cd ef gh ij"` has 5
tokens, and the line `"a bc de fg hi j ab"` shares exactly one token with it,
yet scores 3 rather than 0 — the whitespace-free direct match fires first. -/
theorem claim_C2_counterexample :
    (questionTokens "ab cd ef gh ij".toList).length = 5 ∧
    sharedCount "ab cd ef gh ij".toList "a bc de fg hi j ab".toList = 1 ∧
    score "ab cd ef gh ij".toList "a bc de fg hi j ab".toList = 3 := by
  refine ⟨by decide, by decide, by decide⟩

/-- Claim C2, amended: restricted to the token-overlap path (no direct
match), a ≤ 4-token question sharing exactly one token scores at least 1,
and a 5-token question sharing exactly one token scores 0; a direct match
overrides the latter with score 3. -/
theorem claim_C2 (q line : List Char) :
    ((questionTokens q).length ≤ 4 → sharedCount q line = 1 →
      1 ≤ score q line) ∧
    ((questionTokens q).length = 5 → sharedCount q line = 1 →
      directMatchB q line = false → score q line = 0) := by
  constructor
  · intro h4 hsh
    unfold score
    split
    · norm_num
    · split
      · next hqe =>
        exfalso
        unfold sharedCount at hsh
        rw [List.isEmpty_iff.mp hqe] at hsh
        simp at hsh
      · split
        · next hle =>
          exfalso
          rw [sharedCount_eq_zero_of_no_lineTokens hle] at hsh
          omega
        · dsimp only
          rw [hsh]
          simp [h4]
  · intro h5 hsh hdm
    unfold score
    rw [if_neg (by rw [hdm]; exact Bool.false_ne_true)]
    rw [if_neg (fun he => by
      rw [List.isEmpty_iff.mp he] at h5
      simp at h5)]
    rw [if_neg (fun he => by
      rw [sharedCount_eq_zero_of_no_lineTokens he] at hsh
      omega)]
    dsimp only
    rw [h5, hsh]
    norm_num

theorem claim_C2_witness :
    1 ≤ score "ab cd".toList "ab xx".toList ∧
    score "ab cd ef gh ij".toList "ab zz".toList = 0 :=
  ⟨(claim_C2 "ab cd".toList "ab xx".toList).1 (by decide) (by decide),
    (claim_C2 "ab cd ef gh ij".toList "ab zz".toList).2 (by decide) (by decide)
      (by decide)⟩

/-- Claim C10: the token-overlap score is not capped at 3 — the question
`"alpha bravo charlie delta echo"` scores 4 on a line that is not a direct
match (four shared tokens), and that line ranks strictly above a genuine
direct-match line scoring 3. -/
theorem claim_C10 :
    directMatchB "alpha bravo charlie delta echo".toList
      "alpha bravo charlie delta xx".toList = false ∧
    3 < score "alpha bravo charlie delta echo".toList
      "alpha bravo charlie delta xx".toList ∧
    score "alpha bravo charlie delta echo".toList
      "zz alpha bravo charlie delta echo yy".toList = 3 ∧
    rank "alpha bravo charlie delta echo".toList
      ["zz alpha bravo charlie delta echo yy".toList,
        "alpha bravo charlie delta xx".toList] =
      ["alpha bravo charlie delta xx".toList,
        "zz alpha bravo charlie delta echo yy".toList] := by
  refine ⟨by decide, by decide, by decide, by decide⟩

/-! ### Ranking: filtering, descending stable sort (claim C9) -/

theorem insDesc_perm (x : List Char × Nat) (l : List (List Char × Nat)) :
    (insDesc x l).Perm (x :: l) := by
  induction l with
  | nil => exact List.Perm.refl _
  | cons y rest ih =>
    rw [insDesc]
    split
    · exact List.Perm.refl _
    · exact (ih.cons y).trans (List.Perm.swap x y rest)

theorem sortByScoreDesc_perm (l : List (List Char × Nat)) :
    (sortByScoreDesc l).Perm l := by
  induction l with
  | nil => exact List.Perm.refl _
  | cons x rest ih =>
    exact (insDesc_perm x (sortByScoreDesc rest)).trans (ih.cons x)

theorem insDesc_sorted (x : List Char × Nat) {l : List (List Char × Nat)}
    (h : l.Pairwise (fun a b => b.2 ≤ a.2)) :
    (insDesc x l).Pairwise (fun a b => b.2 ≤ a.2) := by
  induction l with
  | nil => simp [insDesc]
  | cons y rest ih =>
    rw [insDesc]
    have hp := List.pairwise_cons.mp h
    split
    · next hyx =>
      apply List.Pairwise.cons _ h
      intro z hz
      rcases List.mem_cons.mp hz with rfl | hz2
      · exact hyx
      · exact le_trans (hp.1 z hz2) hyx
    · next hyx =>
      apply List.Pairwise.cons _ (ih hp.2)
      intro z hz
      rcases List.mem_cons.mp ((insDesc_perm x rest).subset hz) with rfl | hz2
      · omega
      · exact hp.1 z hz2

theorem sortByScoreDesc_sorted (l : List (List Char × Nat)) :
    (sortByScoreDesc l).Pairwise (fun a b => b.2 ≤ a.2) := by
  induction l with
  | nil => simp [sortByScoreDesc]
  | cons x rest ih => exact insDesc_sorted x ih

theorem filter_insDesc (s : Nat) (x : List Char × Nat)
    (l : List (List Char × Nat)) :
    (insDesc x l).filter (fun p => decide (p.2 = s)) =
      (if x.2 = s then [x] else []) ++ l.filter (fun p => decide (p.2 = s)) := by
  induction l with
  | nil => by_cases hx : x.2 = s <;> simp [insDesc, List.filter_cons, hx]
  | cons y rest ih =>
    rw [insDesc]
    split
    · next hyx =>
      by_cases hx : x.2 = s <;> simp [List.filter_cons, hx]
    · next hyx =>
      rw [List.filter_cons, ih, List.filter_cons]
      by_cases hx : x.2 = s
      · have hy : ¬ y.2 = s := by
          intro hy
          exact hyx (by omega)
        simp [hx, hy]
      · simp [hx]

theorem sortByScoreDesc_filter (s : Nat) (l : List (List Char × Nat)) :
    (sortByScoreDesc l).filter (fun p => decide (p.2 = s)) =
      l.filter (fun p => decide (p.2 = s)) := by
  induction l with
  | nil => rfl
  | cons x rest ih =>
    show (insDesc x (sortByScoreDesc rest)).filter _ = _
    rw [filter_insDesc, ih, List.filter_cons]
    by_cases hx : x.2 = s <;> simp [hx]

theorem scoredLines_snd {q : List Char} {corpus : List (List Char)}
    {p : List Char × Nat} (hp : p ∈ scoredLines q corpus) :
    p.2 = score q p.1 := by
  unfold scoredLines at hp
  obtain ⟨line, _, rfl⟩ := List.mem_map.mp (List.mem_of_mem_filter hp)
  rfl

/-- Claim C9: `rank` returns exactly the positively scoring corpus lines,
sorted by descending score; restricting the output to any fixed positive
score value reproduces the corpus order (stability); and the per-line score
map is a pure function of `(question, line)`, unaffected by corpus
reordering. -/
theorem claim_C9 (q : List Char) (corpus : List (List Char)) :
    (rank q corpus).Pairwise (fun a b => score q b ≤ score q a) ∧
    (rank q corpus).Perm (corpus.filter (fun l => decide (0 < score q l))) ∧
    (∀ s, 0 < s →
      (rank q corpus).filter (fun l => decide (score q l = s)) =
        corpus.filter (fun l => decide (score q l = s))) ∧
    (∀ corpus' : List (List Char), corpus.Perm corpus' →
      (corpus.map (fun l => (l, score q l))).Perm
        (corpus'.map (fun l => (l, score q l)))) := by
  have hsnd : ∀ p ∈ sortByScoreDesc (scoredLines q corpus), p.2 = score q p.1 :=
    fun p hp => scoredLines_snd ((sortByScoreDesc_perm _).subset hp)
  refine ⟨?_, ?_, ?_, fun corpus' hperm => hperm.map _⟩
  · unfold rank
    rw [List.pairwise_map]
    apply List.Pairwise.imp_of_mem _ (sortByScoreDesc_sorted (scoredLines q corpus))
    intro a b ha hb hab
    rw [← hsnd a ha, ← hsnd b hb]
    exact hab
  · unfold rank
    have h1 : ((sortByScoreDesc (scoredLines q corpus)).map Prod.fst).Perm
        ((scoredLines q corpus).map Prod.fst) := (sortByScoreDesc_perm _).map _
    apply h1.trans
    apply List.Perm.of_eq
    unfold scoredLines
    rw [List.filter_map, List.map_map]
    rw [show (Prod.fst ∘ fun l : List Char => (l, score q l)) = id from rfl,
      List.map_id]
    exact List.filter_congr (fun l _ => rfl)
  · intro s hs
    unfold rank
    rw [List.filter_map]
    rw [List.filter_congr (fun p hp => by
      rw [show ((fun l => decide (score q l = s)) ∘ Prod.fst) p =
        decide (score q p.1 = s) from rfl, ← hsnd p hp])]
    rw [sortByScoreDesc_filter]
    unfold scoredLines
    rw [List.filter_filter, List.filter_map, List.map_map]
    have : ∀ l : List Char,
        (decide (score q l = s) && decide (0 < score q l)) =
          decide (score q l = s) := by
      intro l
      by_cases hsc : score q l = s
      · simp [hsc, hs]
      · simp [hsc]
    calc List.map (Prod.fst ∘ fun l => (l, score q l))
          (corpus.filter ((fun p => decide (p.2 = s) && decide (0 < p.2)) ∘
            fun l => (l, score q l)))
        = corpus.filter (fun l => decide (score q l = s) &&
            decide (0 < score q l)) := by
          rw [show (Prod.fst ∘ fun l : List Char => (l, score q l)) = id from rfl,
            List.map_id]
          exact List.filter_congr (fun l _ => rfl)
      _ = corpus.filter (fun l => decide (score q l = s)) :=
          List.filter_congr (fun l _ => this l)

theorem claim_C9_witness :
    (rank ['h', 'i'] [['x'], ['h', 'i']]).Pairwise
      (fun a b => score ['h', 'i'] b ≤ score ['h', 'i'] a) ∧
    (rank ['h', 'i'] [['x'], ['h', 'i']]).Perm
      ([['x'], ['h', 'i']].filter (fun l => decide (0 < score ['h', 'i'] l))) ∧
    (rank ['h', 'i'] [['x'], ['h', 'i']]).filter
        (fun l => decide (score ['h', 'i'] l = 3)) =
      [['x'], ['h', 'i']].filter (fun l => decide (score ['h', 'i'] l = 3)) ∧
    ([['x'], ['h', 'i']].map (fun l => (l, score ['h', 'i'] l))).Perm
      ([['h', 'i'], ['x']].map (fun l => (l, score ['h', 'i'] l))) :=
  ⟨(claim_C9 ['h', 'i'] [['x'], ['h', 'i']]).1,
    (claim_C9 ['h', 'i'] [['x'], ['h', 'i']]).2.1,
    (claim_C9 ['h', 'i'] [['x'], ['h', 'i']]).2.2.1 3 (by norm_num),
    (claim_C9 ['h', 'i'] [['x'], ['h', 'i']]).2.2.2 [['h', 'i'], ['x']]
      (by decide)⟩

theorem wfPatB_lits_mem {ws : List (List Char)}
    (hw : wfPatB (.lits ws) = true) :
    ∀ w ∈ ws, w ≠ [] ∧ ∀ c ∈ w, jsIsSpace c = false := by
  intro w hmem
  rw [wfPatB, Bool.and_eq_true, List.all_eq_true] at hw
  have := hw.1 w hmem
  rw [Bool.and_eq_true, List.all_eq_true] at this
  refine ⟨fun hnil => by rw [hnil] at this; exact absurd this.1 (by decide), ?_⟩
  intro c hc
  have := this.2 c hc
  rwa [Bool.not_eq_true'] at this

theorem wfPatB_lits_heads {w : List Char} {ws : List (List Char)}
    (hw : wfPatB (.lits (w :: ws)) = true) :
    ∀ w2 ∈ ws, w.head? ≠ w2.head? := by
  intro w2 hmem
  rw [wfPatB, Bool.and_eq_true] at hw
  have hd := hw.2
  rw [headsDistinctB, Bool.and_eq_true, List.all_eq_true] at hd
  have := hd.1 w2 hmem
  rwa [decide_eq_true_eq] at this

theorem wfPatB_lits_tail {w : List Char} {ws : List (List Char)}
    (hw : wfPatB (.lits (w :: ws)) = true) : wfPatB (.lits ws) = true := by
  rw [wfPatB, Bool.and_eq_true] at hw ⊢
  rw [headsDistinctB, Bool.and_eq_true] at hw
  exact ⟨by
    rw [List.all_eq_true] at hw ⊢
    exact fun x hx => hw.1 x (List.mem_cons_of_mem w hx), hw.2.2⟩

theorem wfPatB_seq {a b : SPat} {g : Bool}
    (hw : wfPatB (.seqG a g b) = true) : wfPatB a = true ∧ wfPatB b = true := by
  rw [wfPatB, Bool.and_eq_true] at hw
  exact hw

theorem inertForB_mem {m : List Char} {p : SPat} (h : inertForB m p = true) :
    m ≠ [] ∧ ∀ c ∈ m, jsIsSpace c = false ∧ jsToLower c ∉ alphList p := by
  rw [inertForB, Bool.and_eq_true, List.all_eq_true] at h
  constructor
  · intro hnil
    rw [hnil] at h
    exact absurd h.1 (by decide)
  · intro c hc
    have := h.2 c hc
    rw [Bool.and_eq_true, Bool.not_eq_true', Bool.not_eq_true'] at this
    refine ⟨this.1, fun hmem => ?_⟩
    have h2 : (alphList p).contains (jsToLower c) = true := by
      rw [List.contains]
      exact List.elem_iff.mpr hmem
    rw [this.2] at h2
    exact Bool.false_ne_true h2

theorem isPrefixCI_iff {w s : List Char} :
    isPrefixCI w s = true ↔ (s.take w.length).map jsToLower = w := by
  unfold isPrefixCI
  exact beq_iff_eq

theorem firstAlt_exists {ws : List (List Char)} {s : List Char} {n : Nat}
    (h : firstAlt ws s = some n) :
    ∃ w ∈ ws, isPrefixCI w s = true ∧ n = w.length := by
  induction ws with
  | nil => exact absurd h (by rw [firstAlt]; exact Option.noConfusion)
  | cons w rest ih =>
    rw [firstAlt] at h
    by_cases hp : isPrefixCI w s = true
    · rw [if_pos hp] at h
      exact ⟨w, List.mem_cons_self _ _, hp, (Option.some_inj.mp h).symm⟩
    · rw [if_neg hp] at h
      obtain ⟨w2, hm, hp2, hn⟩ := ih h
      exact ⟨w2, List.mem_cons_of_mem _ hm, hp2, hn⟩

theorem matchLen_seqG_inv {a b : SPat} {g : Bool} {s : List Char} {n : Nat}
    (h : matchLen (.seqG a g b) s = some n) :
    ∃ na nb, matchLen a s = some na ∧
      matchLen b ((s.drop na).drop ((s.drop na).takeWhile jsIsSpace).length) =
        some nb ∧
      ¬(g = true ∧ ((s.drop na).takeWhile jsIsSpace).length = 0) ∧
      n = na + ((s.drop na).takeWhile jsIsSpace).length + nb := by
  rw [matchLen] at h
  cases hma : matchLen a s with
  | none => rw [hma] at h; exact absurd h (by simp)
  | some na =>
    rw [hma] at h
    dsimp only at h
    split at h
    · exact absurd h (by simp)
    · next hg =>
      cases hmb : matchLen b ((s.drop na).drop
          ((s.drop na).takeWhile jsIsSpace).length) with
      | none => rw [hmb] at h; exact absurd h (by simp)
      | some nb =>
        rw [hmb] at h
        dsimp only at h
        refine ⟨na, nb, rfl, hmb, ?_, (Option.some_inj.mp h).symm⟩
        intro ⟨hg1, hg2⟩
        exact hg (by rw [hg1, hg2]; rfl)

theorem matchLen_seqG_intro {a b : SPat} {g : Bool} {s : List Char} {na nb : Nat}
    (hma : matchLen a s = some na)
    (hmb : matchLen b ((s.drop na).drop
      ((s.drop na).takeWhile jsIsSpace).length) = some nb)
    (hg : ¬(g = true ∧ ((s.drop na).takeWhile jsIsSpace).length = 0)) :
    matchLen (.seqG a g b) s =
      some (na + ((s.drop na).takeWhile jsIsSpace).length + nb) := by
  rw [matchLen, hma]
  dsimp only
  rw [if_neg (by
    intro hc
    rw [Bool.and_eq_true, beq_iff_eq] at hc
    exact hg ⟨hc.1, hc.2⟩), hmb]

theorem matchLen_pos {p : SPat} (hw : wfPatB p = true) :
    ∀ {s : List Char} {n : Nat}, matchLen p s = some n → 1 ≤ n := by
  induction p with
  | lits ws =>
    intro s n h
    obtain ⟨w, hmem, _, rfl⟩ := firstAlt_exists h
    have := (wfPatB_lits_mem hw w hmem).1
    exact List.length_pos.mpr this
  | seqG a g b iha ihb =>
    intro s n h
    obtain ⟨na, nb, hma, hmb, _, rfl⟩ := matchLen_seqG_inv h
    have := iha (wfPatB_seq hw).1 hma
    omega

theorem matchLen_nil {p : SPat} (hw : wfPatB p = true) :
    matchLen p [] = none := by
  induction p with
  | lits ws =>
    rw [matchLen]
    induction ws with
    | nil => rfl
    | cons w rest ih =>
      rw [firstAlt, if_neg, ih (wfPatB_lits_tail hw)]
      intro hp
      rw [isPrefixCI_iff] at hp
      have hne := (wfPatB_lits_mem hw w (List.mem_cons_self _ _)).1
      rw [List.take_nil, List.map_nil] at hp
      exact hne hp.symm
  | seqG a g b iha ihb =>
    rw [matchLen, iha (wfPatB_seq hw).1]

theorem matchLen_le {p : SPat} :
    ∀ {s : List Char} {n : Nat}, matchLen p s = some n → n ≤ s.length := by
  induction p with
  | lits ws =>
    intro s n h
    obtain ⟨w, _, hp, rfl⟩ := firstAlt_exists h
    rw [isPrefixCI_iff] at hp
    have := congrArg List.length hp
    rw [List.length_map, List.length_take] at this
    omega
  | seqG a g b iha ihb =>
    intro s n h
    obtain ⟨na, nb, hma, hmb, _, rfl⟩ := matchLen_seqG_inv h
    have h1 := iha hma
    have h2 := ihb hmb
    have h3 : ((s.drop na).takeWhile jsIsSpace).length ≤ (s.drop na).length :=
      (List.takeWhile_prefix _).sublist.length_le
    simp only [List.length_drop] at h2 h3
    omega

theorem matchLen_chars {p : SPat} (hw : wfPatB p = true) :
    ∀ {s : List Char} {n : Nat}, matchLen p s = some n →
      ∀ c ∈ s.take n, jsIsSpace c = true ∨ jsToLower c ∈ alphList p := by
  induction p with
  | lits ws =>
    intro s n h c hc
    obtain ⟨w, hmem, hp, rfl⟩ := firstAlt_exists h
    rw [isPrefixCI_iff] at hp
    right
    rw [alphList, List.mem_flatten]
    refine ⟨w, hmem, ?_⟩
    rw [← hp]
    exact List.mem_map_of_mem _ hc
  | seqG a g b iha ihb =>
    intro s n h c hc
    obtain ⟨na, nb, hma, hmb, _, rfl⟩ := matchLen_seqG_inv h
    rw [List.take_add, List.take_add] at hc
    rcases List.mem_append.mp hc with hc1 | hc2
    · rcases List.mem_append.mp hc1 with hc3 | hc4
      · rcases iha (wfPatB_seq hw).1 hma c hc3 with hs | ha
        · exact Or.inl hs
        · exact Or.inr (by rw [alphList]; exact List.mem_append_left _ ha)
      · left
        have : (s.drop na).take ((s.drop na).takeWhile jsIsSpace).length =
            (s.drop na).takeWhile jsIsSpace :=
          ((List.prefix_iff_eq_take.mp (List.takeWhile_prefix _)).symm)
        rw [this] at hc4
        exact List.mem_takeWhile_imp hc4
    · rw [List.drop_drop] at hmb
      rcases ihb (wfPatB_seq hw).2 hmb c hc2 with hs | hb
      · exact Or.inl hs
      · exact Or.inr (by rw [alphList]; exact List.mem_append_right _ hb)

theorem matchLen_head_notin {p : SPat} (hw : wfPatB p = true) :
    ∀ {c : Char} {t : List Char}, jsToLower c ∉ alphList p →
      matchLen p (c :: t) = none := by
  induction p with
  | lits ws =>
    intro c t hc
    rw [matchLen]
    induction ws with
    | nil => rfl
    | cons w rest ih =>
      rw [firstAlt, if_neg, ih (wfPatB_lits_tail hw)
        (fun hmem => hc (by
          rw [alphList, List.mem_flatten] at hmem ⊢
          obtain ⟨l, hl, hcl⟩ := hmem
          exact ⟨l, List.mem_cons_of_mem _ hl, hcl⟩))]
      intro hp
      rw [isPrefixCI_iff] at hp
      have hne := (wfPatB_lits_mem hw w (List.mem_cons_self _ _)).1
      have hlen : 1 ≤ w.length := List.length_pos.mpr hne
      apply hc
      rw [alphList, List.mem_flatten]
      refine ⟨w, List.mem_cons_self _ _, ?_⟩
      rw [← hp]
      apply List.mem_map_of_mem
      rw [List.take_cons (by omega)]
      exact List.mem_cons_self _ _
  | seqG a g b iha ihb =>
    intro c t hc
    rw [matchLen, iha (wfPatB_seq hw).1
      (fun hmem => hc (by rw [alphList]; exact List.mem_append_left _ hmem))]

theorem takeWhile_length_congr {p : Char → Bool} :
    ∀ {l l' : List Char} {m : Nat}, l.take m = l'.take m →
      (l.takeWhile p).length < m →
      (l'.takeWhile p).length = (l.takeWhile p).length := by
  intro l
  induction l with
  | nil =>
    intro l' m h hlt
    simp only [List.takeWhile_nil, List.length_nil] at hlt ⊢
    have : l'.take m = [] := by rw [← h, List.take_nil]
    rcases List.take_eq_nil_iff.mp this with rfl | rfl
    · omega
    · rfl
  | cons a t ih =>
    intro l' m h hlt
    cases m with
    | zero => exact absurd hlt (Nat.not_lt_zero _)
    | succ m' =>
      cases l' with
      | nil => simp at h
      | cons a' t' =>
        simp only [List.take_succ_cons, List.cons.injEq] at h
        obtain ⟨rfl, h2⟩ := h
        by_cases hp : p a
        · rw [List.takeWhile_cons_of_pos hp] at hlt ⊢
          rw [List.takeWhile_cons_of_pos hp]
          simp only [List.length_cons] at hlt ⊢
          rw [ih h2 (by omega)]
        · rw [List.takeWhile_cons_of_neg hp, List.takeWhile_cons_of_neg hp]

theorem take_drop_congr {x x' : List Char} {na m n : Nat}
    (h : x'.take n = x.take n) (hnm : na + m ≤ n) :
    (x'.drop na).take m = (x.drop na).take m := by
  rw [List.take_drop, List.take_drop]
  congr 1
  calc x'.take (na + m) = (x'.take n).take (na + m) := by
        rw [List.take_take, Nat.min_eq_left hnm]
    _ = (x.take n).take (na + m) := by rw [h]
    _ = x.take (na + m) := by rw [List.take_take, Nat.min_eq_left hnm]

theorem isPrefixCI_head {w s : List Char} (hne : w ≠ [])
    (h : isPrefixCI w s = true) :
    ∃ c t, s = c :: t ∧ w.head? = some (jsToLower c) := by
  rw [isPrefixCI_iff] at h
  cases s with
  | nil =>
    rw [List.take_nil, List.map_nil] at h
    exact absurd h.symm hne
  | cons c t =>
    refine ⟨c, t, rfl, ?_⟩
    have hlen : 1 ≤ w.length := List.length_pos.mpr hne
    rw [← h, List.take_cons hlen, List.map_cons, List.head?_cons]

theorem firstAlt_congr {ws : List (List Char)}
    (hw : wfPatB (.lits ws) = true) :
    ∀ {s s' : List Char} {n : Nat}, firstAlt ws s = some n →
      s'.take n = s.take n → firstAlt ws s' = some n := by
  induction ws with
  | nil => intro s s' n h; exact absurd h (by rw [firstAlt]; exact Option.noConfusion)
  | cons w rest ih =>
    intro s s' n h hts
    rw [firstAlt] at h ⊢
    by_cases hp : isPrefixCI w s = true
    · rw [if_pos hp] at h
      obtain rfl : w.length = n := Option.some_inj.mp h
      rw [if_pos (by
        rw [isPrefixCI_iff] at hp ⊢
        rw [hts, hp])]
    · rw [if_neg hp] at h
      have hw2 : isPrefixCI w s' = false := by
        by_contra hc
        rw [Bool.not_eq_false] at hc
        obtain ⟨w2, hm2, hp2, rfl⟩ := firstAlt_exists h
        have hne2 := (wfPatB_lits_mem hw w2 (List.mem_cons_of_mem _ hm2)).1
        have hne1 := (wfPatB_lits_mem hw w (List.mem_cons_self _ _)).1
        obtain ⟨c2, t2, rfl, hh2⟩ := isPrefixCI_head hne2 hp2
        obtain ⟨c1, t1, hs', hh1⟩ := isPrefixCI_head hne1 hc
        have hlen2 : 1 ≤ w2.length := List.length_pos.mpr hne2
        have : c1 = c2 := by
          have h0 := congrArg List.head? hts
          rw [hs'] at h0
          rw [List.take_cons hlen2, List.take_cons hlen2, List.head?_cons,
            List.head?_cons] at h0
          exact Option.some_inj.mp h0
        exact wfPatB_lits_heads hw w2 hm2 (by rw [hh1, hh2, this])
      rw [if_neg (by rw [hw2]; exact Bool.false_ne_true)]
      exact ih (wfPatB_lits_tail hw) h hts

theorem matchLen_congr {p : SPat} (hw : wfPatB p = true) :
    ∀ {s s' : List Char} {n : Nat}, matchLen p s = some n →
      s'.take n = s.take n → matchLen p s' = some n := by
  induction p with
  | lits ws =>
    intro s s' n h hts
    rw [matchLen] at h ⊢
    exact firstAlt_congr hw h hts
  | seqG a g b iha ihb =>
    intro s s' n h hts
    obtain ⟨na, nb, hma, hmb, hg, rfl⟩ := matchLen_seqG_inv h
    have hwa := (wfPatB_seq hw).1
    have hwb := (wfPatB_seq hw).2
    have hnb1 : 1 ≤ nb := matchLen_pos hwb hmb
    set k := ((s.drop na).takeWhile jsIsSpace).length with hk
    have hna : na ≤ na + k + nb := by omega
    have hma' : matchLen a s' = some na := by
      apply iha hwa hma
      calc s'.take na = (s'.take (na + k + nb)).take na := by
            rw [List.take_take, Nat.min_eq_left hna]
        _ = (s.take (na + k + nb)).take na := by rw [hts]
        _ = s.take na := by rw [List.take_take, Nat.min_eq_left hna]
    have hdrop : (s'.drop na).take (k + nb) = (s.drop na).take (k + nb) :=
      take_drop_congr hts (by omega)
    have hk' : ((s'.drop na).takeWhile jsIsSpace).length = k := by
      rw [hk]
      exact takeWhile_length_congr hdrop.symm (by omega)
    have hmb' : matchLen b ((s'.drop na).drop
        ((s'.drop na).takeWhile jsIsSpace).length) = some nb := by
      rw [hk']
      apply ihb hwb hmb
      rw [List.drop_drop, List.drop_drop]
      exact take_drop_congr hts (by omega)
    have := matchLen_seqG_intro (g := g) hma' hmb' (by
      rw [hk']
      exact hg)
    rw [hk'] at this
    rw [this]

theorem replaceAll_nil (p : SPat) (m : List Char) : replaceAll p m [] = [] := by
  rw [replaceAll]

theorem replaceAll_cons_match {p : SPat} {m : List Char} {c : Char}
    {rest : List Char} {n : Nat} (h : matchLen p (c :: rest) = some (n + 1)) :
    replaceAll p m (c :: rest) = m ++ replaceAll p m (rest.drop n) := by
  rw [replaceAll, h]

theorem replaceAll_cons_none {p : SPat} {m : List Char} {c : Char}
    {rest : List Char} (h : matchLen p (c :: rest) = none) :
    replaceAll p m (c :: rest) = c :: replaceAll p m rest := by
  rw [replaceAll, h]

theorem replaceAll_cons_zero {p : SPat} {m : List Char} {c : Char}
    {rest : List Char} (h : matchLen p (c :: rest) = some 0) :
    replaceAll p m (c :: rest) = c :: replaceAll p m rest := by
  rw [replaceAll, h]

theorem replaceAll_ne_nil {p : SPat} {m s : List Char} (hm : m ≠ [])
    (hs : s ≠ []) : replaceAll p m s ≠ [] := by
  obtain ⟨c, rest, rfl⟩ : ∃ c rest, s = c :: rest := by
    cases s with
    | nil => exact absurd rfl hs
    | cons c rest => exact ⟨c, rest, rfl⟩
  cases hml : matchLen p (c :: rest) with
  | none => rw [replaceAll_cons_none hml]; exact List.cons_ne_nil _ _
  | some n =>
    cases n with
    | zero => rw [replaceAll_cons_zero hml]; exact List.cons_ne_nil _ _
    | succ n' =>
      rw [replaceAll_cons_match hml]
      exact List.append_ne_nil_of_left_ne_nil hm _

/-- Decomposition of `replaceAll`'s output: either nothing was replaced, or
the output is an untouched prefix of the input followed by the first marker
and the rest of the processing. -/
theorem replaceAll_decomp (p : SPat) (m : List Char) :
    ∀ s : List Char, replaceAll p m s = s ∨
      ∃ u t, replaceAll p m s = u ++ m ++ t ∧ u = s.take u.length := by
  intro s
  induction s with
  | nil => left; exact replaceAll_nil p m
  | cons c rest ih =>
    cases hml : matchLen p (c :: rest) with
    | some n =>
      cases n with
      | zero =>
        rw [replaceAll_cons_zero hml]
        rcases ih with h | ⟨u, t, h1, h2⟩
        · left; rw [h]
        · right
          refine ⟨c :: u, t, by rw [h1]; rfl, ?_⟩
          rw [List.length_cons, List.take_succ_cons, ← h2]
      | succ n' =>
        right
        exact ⟨[], replaceAll p m (rest.drop n'),
          by rw [replaceAll_cons_match hml]; rfl, rfl⟩
    | none =>
      rw [replaceAll_cons_none hml]
      rcases ih with h | ⟨u, t, h1, h2⟩
      · left; rw [h]
      · right
        refine ⟨c :: u, t, by rw [h1]; rfl, ?_⟩
        rw [List.length_cons, List.take_succ_cons, ← h2]

theorem noMatch_nil {p : SPat} (hw : wfPatB p = true) : NoMatch p [] :=
  fun _ => by rw [List.drop_nil]; exact matchLen_nil hw

theorem noMatch_cons_iff {p : SPat} {c : Char} {rest : List Char} :
    NoMatch p (c :: rest) ↔ matchLen p (c :: rest) = none ∧ NoMatch p rest := by
  constructor
  · intro h
    exact ⟨h 0, fun i => by have := h (i + 1); rwa [List.drop_succ_cons] at this⟩
  · rintro ⟨h0, h⟩ i
    cases i with
    | zero => exact h0
    | succ j => rw [List.drop_succ_cons]; exact h j

theorem noMatch_drop {p : SPat} {s : List Char} (h : NoMatch p s) (j : Nat) :
    NoMatch p (s.drop j) := fun i => by rw [List.drop_drop]; exact h (j + i)

theorem replaceAll_id_of_noMatch {p : SPat} {m : List Char} :
    ∀ {s : List Char}, NoMatch p s → replaceAll p m s = s := by
  intro s
  induction s with
  | nil => intro _; exact replaceAll_nil p m
  | cons c rest ih =>
    intro h
    obtain ⟨h0, hrest⟩ := noMatch_cons_iff.mp h
    rw [replaceAll_cons_none h0, ih hrest]

theorem noMatch_marker_append {p : SPat} {m rest : List Char}
    (hw : wfPatB p = true)
    (hmc : ∀ c ∈ m, jsToLower c ∉ alphList p)
    (h : NoMatch p rest) : NoMatch p (m ++ rest) := by
  induction m with
  | nil => exact h
  | cons c m' ih =>
    rw [List.cons_append, noMatch_cons_iff]
    exact ⟨matchLen_head_notin hw (hmc c (List.mem_cons_self _ _)),
      ih (fun x hx => hmc x (List.mem_cons_of_mem _ hx))⟩

/-- Replacing (with an inert marker) inside the tail cannot create a match at
the current position: the match would have to stop before the first marker,
on text identical to the original. -/
theorem matchLen_cons_replaceAll_none {p q : SPat} {marker : List Char}
    {c : Char} {rest : List Char} (hw : wfPatB p = true)
    (hin : inertForB marker p = true)
    (hm0 : matchLen p (c :: rest) = none) :
    matchLen p (c :: replaceAll q marker rest) = none := by
  rcases replaceAll_decomp q marker rest with hid | ⟨u, t, h1, h2⟩
  · rw [hid]; exact hm0
  · rw [h1]
    cases hmc : matchLen p (c :: (u ++ marker ++ t)) with
    | none => rfl
    | some n =>
      exfalso
      have hn1 : 1 ≤ n := matchLen_pos hw hmc
      obtain ⟨hmne, hinert⟩ := inertForB_mem hin
      obtain ⟨mc, mt, rfl⟩ : ∃ mc mt, marker = mc :: mt := by
        cases marker with
        | nil => exact absurd rfl hmne
        | cons mc mt => exact ⟨mc, mt, rfl⟩
      have hmcin := hinert mc (List.mem_cons_self _ _)
      have hn2 : n ≤ 1 + u.length := by
        by_contra hgt
        push_neg at hgt
        have hmem : mc ∈ (c :: (u ++ (mc :: mt) ++ t)).take n := by
          rw [List.take_cons hn1]
          apply List.mem_cons_of_mem
          rw [List.append_assoc, List.take_append_eq_append_take]
          apply List.mem_append_right
          rw [List.cons_append, List.take_cons (by omega)]
          exact List.mem_cons_self _ _
        rcases matchLen_chars hw hmc mc hmem with hsp | ha
        · rw [hmcin.1] at hsp
          exact Bool.false_ne_true hsp
        · exact hmcin.2 ha
      have htake : (c :: rest).take n = (c :: (u ++ (mc :: mt) ++ t)).take n := by
        obtain ⟨j, rfl⟩ : ∃ j, n = j + 1 := ⟨n - 1, by omega⟩
        rw [List.take_succ_cons, List.take_succ_cons]
        congr 1
        have hj : j ≤ u.length := by omega
        rw [List.append_assoc, List.take_append_eq_append_take,
          Nat.sub_eq_zero_of_le hj, List.take_zero, List.append_nil, h2,
          List.take_take, Nat.min_eq_left hj]
      exact absurd (matchLen_congr hw hmc htake) (by rw [hm0]; simp)

/-- After a pattern's own global replacement, no suffix of the output matches
that pattern. -/
theorem noMatch_replaceAll_self {p : SPat} {marker : List Char}
    (hw : wfPatB p = true) (hin : inertForB marker p = true) :
    ∀ s : List Char, NoMatch p (replaceAll p marker s) := by
  suffices H : ∀ (N : Nat) (s : List Char), s.length ≤ N →
      NoMatch p (replaceAll p marker s) from
    fun s => H s.length s (Nat.le_refl _)
  intro N
  induction N with
  | zero =>
    intro s hs
    rw [List.length_eq_zero.mp (Nat.le_zero.mp hs), replaceAll_nil]
    exact noMatch_nil hw
  | succ N ih =>
    intro s hs
    cases s with
    | nil =>
      rw [replaceAll_nil]
      exact noMatch_nil hw
    | cons c rest =>
      rw [List.length_cons] at hs
      cases hml : matchLen p (c :: rest) with
      | some n =>
        cases n with
        | zero =>
          have := matchLen_pos hw hml
          omega
        | succ n' =>
          rw [replaceAll_cons_match hml]
          have hrec : NoMatch p (replaceAll p marker (rest.drop n')) := by
            apply ih
            rw [List.length_drop]
            omega
          exact noMatch_marker_append hw
            (fun x hx => ((inertForB_mem hin).2 x hx).2) hrec
      | none =>
        rw [replaceAll_cons_none hml, noMatch_cons_iff]
        exact ⟨matchLen_cons_replaceAll_none hw hin hml, ih rest (by omega)⟩

/-- Replacing a (possibly different) pattern with an inert marker preserves
the absence of matches of `p`. -/
theorem noMatch_replaceAll_other {p q : SPat} {marker : List Char}
    (hw : wfPatB p = true) (hin : inertForB marker p = true) :
    ∀ s : List Char, NoMatch p s → NoMatch p (replaceAll q marker s) := by
  suffices H : ∀ (N : Nat) (s : List Char), s.length ≤ N → NoMatch p s →
      NoMatch p (replaceAll q marker s) from
    fun s => H s.length s (Nat.le_refl _)
  intro N
  induction N with
  | zero =>
    intro s hs hnm
    rw [List.length_eq_zero.mp (Nat.le_zero.mp hs), replaceAll_nil]
    exact noMatch_nil hw
  | succ N ih =>
    intro s hs hnm
    cases s with
    | nil =>
      rw [replaceAll_nil]
      exact noMatch_nil hw
    | cons c rest =>
      rw [List.length_cons] at hs
      have hfront := hnm 0
      rw [List.drop_zero] at hfront
      have htail : NoMatch p rest := (noMatch_cons_iff.mp hnm).2
      cases hml : matchLen q (c :: rest) with
      | some n =>
        cases n with
        | zero =>
          rw [replaceAll_cons_zero hml, noMatch_cons_iff]
          exact ⟨matchLen_cons_replaceAll_none hw hin hfront,
            ih rest (by omega) htail⟩
        | succ n' =>
          rw [replaceAll_cons_match hml]
          have hrec : NoMatch p (replaceAll q marker (rest.drop n')) := by
            apply ih _ (by rw [List.length_drop]; omega)
            exact noMatch_drop htail n'
          exact noMatch_marker_append hw
            (fun x hx => ((inertForB_mem hin).2 x hx).2) hrec
      | none =>
        rw [replaceAll_cons_none hml, noMatch_cons_iff]
        exact ⟨matchLen_cons_replaceAll_none hw hin hfront,
          ih rest (by omega) htail⟩

theorem getLast?_of_ne_nil_suffix {Y : List Char} {k : Nat}
    (h : Y.drop k ≠ []) : (Y.drop k).getLast? = Y.getLast? := by
  obtain ⟨d, hd⟩ := Option.isSome_iff_exists.mp (List.getLast?_isSome.mpr h)
  conv_rhs => rw [← List.take_append_drop k Y]
  rw [List.getLast?_append, hd]
  rfl

theorem getLast?_cons_of_ne_nil {c : Char} {l : List Char} (h : l ≠ []) :
    (c :: l).getLast? = l.getLast? := by
  obtain ⟨d, hd⟩ := Option.isSome_iff_exists.mp (List.getLast?_isSome.mpr h)
  rw [show c :: l = [c] ++ l from rfl, List.getLast?_append, hd]
  rfl

theorem lastOk_tail {c : Char} {rest : List Char} (h : LastOk (c :: rest))
    (hne : rest ≠ []) : LastOk rest := by
  intro d hd
  apply h d
  rw [getLast?_cons_of_ne_nil hne, hd]

theorem firstOk_replaceAll {q : SPat} {marker : List Char}
    (hm1 : marker ≠ []) (hm2 : ∀ c ∈ marker, jsIsSpace c = false)
    {s : List Char} (h : FirstOk s) : FirstOk (replaceAll q marker s) := by
  cases s with
  | nil => rw [replaceAll_nil]; exact h
  | cons c rest =>
    have hc : jsIsSpace c = false := h c (by rw [List.head?_cons])
    obtain ⟨mc, mt, rfl⟩ : ∃ mc mt, marker = mc :: mt := by
      cases marker with
      | nil => exact absurd rfl hm1
      | cons mc mt => exact ⟨mc, mt, rfl⟩
    cases hml : matchLen q (c :: rest) with
    | some n =>
      cases n with
      | zero =>
        rw [replaceAll_cons_zero hml]
        intro d hd
        rw [List.head?_cons, Option.some_inj] at hd
        rw [← hd]
        exact hc
      | succ n' =>
        rw [replaceAll_cons_match hml]
        intro d hd
        rw [List.cons_append, List.head?_cons, Option.some_inj] at hd
        rw [← hd]
        exact hm2 mc (List.mem_cons_self _ _)
    | none =>
      rw [replaceAll_cons_none hml]
      intro d hd
      rw [List.head?_cons, Option.some_inj] at hd
      rw [← hd]
      exact hc

theorem lastOk_replaceAll {q : SPat} {marker : List Char}
    (hm1 : marker ≠ []) (hm2 : ∀ c ∈ marker, jsIsSpace c = false) :
    ∀ {s : List Char}, LastOk s → LastOk (replaceAll q marker s) := by
  have hmlast : LastOk marker := by
    intro d hd
    exact hm2 d (List.mem_of_mem_getLast? (by rw [hd]; exact rfl))
  suffices H : ∀ (N : Nat) (s : List Char), s.length ≤ N → LastOk s →
      LastOk (replaceAll q marker s) from fun {s} h => H s.length s (Nat.le_refl _) h
  intro N
  induction N with
  | zero =>
    intro s hs h
    rw [List.length_eq_zero.mp (Nat.le_zero.mp hs), replaceAll_nil]
    intro d hd
    rw [List.getLast?_eq_none_iff.mpr rfl] at hd
    exact Option.noConfusion hd
  | succ N ih =>
    intro s hs h
    cases s with
    | nil =>
      rw [replaceAll_nil]
      intro d hd
      rw [List.getLast?_eq_none_iff.mpr rfl] at hd
      exact Option.noConfusion hd
    | cons c rest =>
      rw [List.length_cons] at hs
      cases hml : matchLen q (c :: rest) with
      | some n =>
        cases n with
        | zero =>
          rw [replaceAll_cons_zero hml]
          by_cases hre : rest = []
          · subst hre
            rw [replaceAll_nil]
            exact h
          · have hrne : replaceAll q marker rest ≠ [] :=
              replaceAll_ne_nil hm1 hre
            intro d hd
            rw [getLast?_cons_of_ne_nil hrne] at hd
            exact ih rest (by omega) (lastOk_tail h hre) d hd
        | succ n' =>
          rw [replaceAll_cons_match hml]
          by_cases hre : rest.drop n' = []
          · rw [hre, replaceAll_nil, List.append_nil]
            exact hmlast
          · have hrne : replaceAll q marker (rest.drop n') ≠ [] :=
              replaceAll_ne_nil hm1 hre
            have hdropLast : LastOk (rest.drop n') := by
              intro d' hd'
              apply h d'
              have : (c :: rest).drop (n' + 1) = rest.drop n' :=
                List.drop_succ_cons
              rw [← getLast?_of_ne_nil_suffix (k := n' + 1) (by rw [this]; exact hre),
                this, hd']
            intro d hd
            obtain ⟨e, he⟩ := Option.isSome_iff_exists.mp
              (List.getLast?_isSome.mpr hrne)
            rw [List.getLast?_append, he] at hd
            rw [show (some e).or marker.getLast? = some e from rfl,
              Option.some_inj] at hd
            subst hd
            exact ih (rest.drop n') (by rw [List.length_drop]; omega) hdropLast e he
      | none =>
        rw [replaceAll_cons_none hml]
        by_cases hre : rest = []
        · subst hre
          rw [replaceAll_nil]
          exact h
        · have hrne : replaceAll q marker rest ≠ [] :=
            replaceAll_ne_nil hm1 hre
          intro d hd
          rw [getLast?_cons_of_ne_nil hrne] at hd
          exact ih rest (by omega) (lastOk_tail h hre) d hd

theorem firstOk_dropWhile (y : List Char) :
    FirstOk (y.dropWhile jsIsSpace) := by
  induction y with
  | nil => intro d hd; exact Option.noConfusion hd
  | cons c t ih =>
    rw [List.dropWhile_cons]
    split
    · exact ih
    · next hc =>
      intro d hd
      rw [List.head?_cons, Option.some_inj] at hd
      rw [← hd]
      exact Bool.of_not_eq_true hc

theorem dropWhile_eq_self_of_firstOk {y : List Char} (h : FirstOk y) :
    y.dropWhile jsIsSpace = y := by
  cases y with
  | nil => rfl
  | cons c t =>
    have hc : jsIsSpace c = false := h c (by rw [List.head?_cons])
    rw [List.dropWhile_cons, if_neg (by rw [hc]; exact Bool.false_ne_true)]

theorem jsTrim_ends (x : List Char) : FirstOk (jsTrim x) ∧ LastOk (jsTrim x) := by
  unfold jsTrim
  constructor
  · intro d hd
    rw [List.head?_reverse] at hd
    by_cases hB : (((x.dropWhile jsIsSpace).reverse).dropWhile jsIsSpace) = []
    · rw [hB] at hd
      exact Option.noConfusion hd
    · rw [show (((x.dropWhile jsIsSpace).reverse).dropWhile jsIsSpace).getLast? =
          ((x.dropWhile jsIsSpace).reverse).getLast? from by
        conv_rhs => rw [← List.takeWhile_append_dropWhile (p := jsIsSpace)
          (l := (x.dropWhile jsIsSpace).reverse)]
        obtain ⟨e, he⟩ := Option.isSome_iff_exists.mp (List.getLast?_isSome.mpr hB)
        rw [List.getLast?_append, he]
        rfl] at hd
      rw [List.getLast?_reverse] at hd
      exact firstOk_dropWhile x d hd
  · intro d hd
    rw [List.getLast?_reverse] at hd
    exact firstOk_dropWhile _ d hd

theorem jsTrim_eq_self_of_ends {s : List Char} (h1 : FirstOk s)
    (h2 : LastOk s) : jsTrim s = s := by
  unfold jsTrim
  rw [dropWhile_eq_self_of_firstOk h1, dropWhile_eq_self_of_firstOk
    (by intro d hd; rw [List.head?_reverse] at hd; exact h2 d hd),
    List.reverse_reverse]

theorem foldl_preserves_noMatch {p : SPat} {marker : List Char}
    (hw : wfPatB p = true) (hin : inertForB marker p = true) :
    ∀ (ps : List SPat) (y : List Char), NoMatch p y →
      NoMatch p (ps.foldl (fun acc r => replaceAll r marker acc) y) := by
  intro ps
  induction ps with
  | nil => intro y h; exact h
  | cons r rest ih =>
    intro y h
    rw [List.foldl_cons]
    exact ih _ (noMatch_replaceAll_other hw hin _ h)

theorem foldl_noMatch {marker : List Char} :
    ∀ (ps : List SPat) (y : List Char),
      (∀ p ∈ ps, wfPatB p = true ∧ inertForB marker p = true) →
      ∀ p ∈ ps, NoMatch p (ps.foldl (fun acc r => replaceAll r marker acc) y) := by
  intro ps
  induction ps with
  | nil => intro y _ p hp; exact absurd hp (List.not_mem_nil p)
  | cons r rest ih =>
    intro y hall p hp
    rw [List.foldl_cons]
    rcases List.mem_cons.mp hp with rfl | hp2
    · have hr := hall p (List.mem_cons_self _ _)
      exact foldl_preserves_noMatch hr.1 hr.2 rest _
        (noMatch_replaceAll_self hr.1 hr.2 y)
    · exact ih _ (fun x hx => hall x (List.mem_cons_of_mem _ hx)) p hp2

theorem foldl_id_of_noMatch {marker : List Char} :
    ∀ (ps : List SPat) (u : List Char), (∀ p ∈ ps, NoMatch p u) →
      ps.foldl (fun acc r => replaceAll r marker acc) u = u := by
  intro ps
  induction ps with
  | nil => intro u _; rfl
  | cons r rest ih =>
    intro u h
    rw [List.foldl_cons,
      replaceAll_id_of_noMatch (h r (List.mem_cons_self _ _))]
    exact ih u (fun x hx => h x (List.mem_cons_of_mem _ hx))

theorem foldl_preserves_ends {marker : List Char} (hm1 : marker ≠ [])
    (hm2 : ∀ c ∈ marker, jsIsSpace c = false) :
    ∀ (ps : List SPat) (y : List Char), FirstOk y → LastOk y →
      FirstOk (ps.foldl (fun acc r => replaceAll r marker acc) y) ∧
        LastOk (ps.foldl (fun acc r => replaceAll r marker acc) y) := by
  intro ps
  induction ps with
  | nil => intro y h1 h2; exact ⟨h1, h2⟩
  | cons r rest ih =>
    intro y h1 h2
    rw [List.foldl_cons]
    exact ih _ (firstOk_replaceAll hm1 hm2 h1) (lastOk_replaceAll hm1 hm2 h2)

theorem forbidden_wf_inert :
    ∀ p ∈ FORBIDDEN, wfPatB p = true ∧ inertForB redactMarker p = true := by
  decide

theorem redactMarker_ne_nil : redactMarker ≠ [] := by decide

theorem redactMarker_no_ws : ∀ c ∈ redactMarker, jsIsSpace c = false := by
  decide

theorem sanitizeOutput_empty {s : List Char} (h : s.isEmpty = true) :
    sanitizeOutput s = [] := by
  unfold sanitizeOutput
  rw [if_pos h]

theorem sanitizeOutput_of_ne {s : List Char} (h : ¬s.isEmpty = true) :
    sanitizeOutput s =
      FORBIDDEN.foldl (fun acc p => replaceAll p redactMarker acc) (jsTrim s) := by
  unfold sanitizeOutput
  rw [if_neg h]

/-- Claim C7: `sanitizeOutput` is idempotent — one pass removes every match
of every forbidden pattern, its output still has non-whitespace ends, and the
redaction marker can neither contain nor help form a new match, so a second
pass is the identity. -/
theorem claim_C7 (text : List Char) :
    sanitizeOutput (sanitizeOutput text) = sanitizeOutput text := by
  by_cases h0 : text.isEmpty
  · rw [sanitizeOutput_empty h0]
    exact sanitizeOutput_empty rfl
  · by_cases hue : (sanitizeOutput text).isEmpty
    · rw [sanitizeOutput_empty hue]
      exact (List.isEmpty_iff.mp hue).symm
    · have hu := sanitizeOutput_of_ne h0
      have hends : FirstOk (sanitizeOutput text) ∧ LastOk (sanitizeOutput text) := by
        rw [hu]
        exact foldl_preserves_ends redactMarker_ne_nil redactMarker_no_ws
          FORBIDDEN (jsTrim text) (jsTrim_ends text).1 (jsTrim_ends text).2
      have hnm : ∀ p ∈ FORBIDDEN, NoMatch p (sanitizeOutput text) := by
        rw [hu]
        exact foldl_noMatch FORBIDDEN (jsTrim text) forbidden_wf_inert
      rw [sanitizeOutput_of_ne hue, jsTrim_eq_self_of_ends hends.1 hends.2]
      exact foldl_id_of_noMatch FORBIDDEN _ hnm

end Chatbot
